import Mathlib

/-!
# Verification of Macolint's hierarchical snippet store (`macolint/database.py`)

This file gives a shallow embedding of the local storage engine of the
Macolint snippet manager and settles the frozen claims about it.

Modelling conventions:

* Python strings are modelled as `List Char` (abbreviated `Str`); Python's
  `s.split("/")` becomes `splitOnSlash`, `"/".join(...)` becomes `joinSlash`.
* The two SQLite tables (`modules`, `snippets`) are modelled as lists of
  rows in rowid (insertion) order; `cursor.fetchone()` after a keyed
  `SELECT` is `List.find?` (first row in rowid order).
* SQLite `AUTOINCREMENT` ids are modelled by `nextModuleId`/`nextSnippetId`
  counters.
* The `UNIQUE INDEX`es on `modules(parent_id, name)` and
  `snippets(module_id, name)` follow SQLite semantics: rows whose indexed
  `parent_id`/`module_id` is NULL (`none`) never conflict with each other,
  because SQLite treats NULLs as pairwise distinct inside unique indexes.
  `INSERT`/`UPDATE` raising `sqlite3.IntegrityError` is modelled by an
  explicit conflict test with exactly those semantics.
* `datetime.now().isoformat()` timestamps are modelled as an abstract
  `now : Nat` argument.
* The Fernet encryption codec is out of scope per the spec ("treated as a
  pure function pair"); it is modelled as an explicit `Codec` parameter:
  an arbitrary pair of functions with a decrypt-after-encrypt round trip.
-/

/-- Python strings are modelled as lists of characters. -/
abbrev Str := List Char

/-- Python `full_path.split("/")`: split at every `'/'`, keeping empty
segments.  Always returns a non-empty list. -/
def splitOnSlash : Str → List Str
  | [] => [[]]
  | c :: cs =>
    let r := splitOnSlash cs
    if c = '/' then [] :: r
    else
      match r with
      | [] => [[c]]
      | s :: rest => (c :: s) :: rest

/-- Python `"/".join(parts)`. -/
def joinSlash : List Str → Str
  | [] => []
  | [s] => s
  | s :: rest => s ++ '/' :: joinSlash rest

theorem splitOnSlash_ne_nil (s : Str) : splitOnSlash s ≠ [] := by
  cases s with
  | nil => simp [splitOnSlash]
  | cons c cs =>
    simp only [splitOnSlash]
    split
    · simp
    · split
      · simp
      · simp

/-- Segments produced by `splitOnSlash` never contain `'/'`. -/
theorem not_slash_mem_of_mem_splitOnSlash {l : Str} {s : Str}
    (h : s ∈ splitOnSlash l) : '/' ∉ s := by
  induction l generalizing s with
  | nil =>
    simp [splitOnSlash] at h
    simp [h]
  | cons c cs ih =>
    simp only [splitOnSlash] at h
    split at h
    · rcases List.mem_cons.1 h with h' | h'
      · simp [h']
      · exact ih h'
    · rename_i hc
      rcases hr : splitOnSlash cs with _ | ⟨s₀, rest⟩
      · exact absurd hr (splitOnSlash_ne_nil cs)
      · rw [hr] at h
        rcases List.mem_cons.1 h with h' | h'
        · subst h'
          intro hmem
          rcases List.mem_cons.1 hmem with h'' | h''
          · exact hc h''.symm
          · exact ih (show s₀ ∈ splitOnSlash cs by
              rw [hr]; exact List.mem_cons_self s₀ rest) h''
        · exact ih (show s ∈ splitOnSlash cs by
            rw [hr]; exact List.mem_cons_of_mem s₀ h')

/-- Splitting a concatenation at an explicit slash splits both halves. -/
theorem splitOnSlash_append (xs ys : Str) :
    splitOnSlash (xs ++ '/' :: ys) = splitOnSlash xs ++ splitOnSlash ys := by
  induction xs with
  | nil => simp [splitOnSlash]
  | cons c cs ih =>
    by_cases hc : c = '/'
    · subst hc
      simp [splitOnSlash, ih]
    · rcases hr : splitOnSlash cs with _ | ⟨s₀, rest⟩
      · exact absurd hr (splitOnSlash_ne_nil cs)
      · simp [splitOnSlash, hc, ih, hr]

/-- A slash-free string is a single segment. -/
theorem splitOnSlash_eq_single {xs : Str} (h : '/' ∉ xs) :
    splitOnSlash xs = [xs] := by
  induction xs with
  | nil => simp [splitOnSlash]
  | cons c cs ih =>
    have hc : c ≠ '/' := fun hcc => h (by simp [hcc])
    have hcs : '/' ∉ cs := fun hm => h (List.mem_cons_of_mem c hm)
    simp only [splitOnSlash, if_neg hc, ih hcs]

/-- `joinSlash` is a left inverse of `splitOnSlash`. -/
theorem joinSlash_splitOnSlash (l : Str) : joinSlash (splitOnSlash l) = l := by
  induction l with
  | nil => simp [splitOnSlash, joinSlash]
  | cons c cs ih =>
    rcases hr : splitOnSlash cs with _ | ⟨s₀, rest⟩
    · exact absurd hr (splitOnSlash_ne_nil cs)
    · rw [hr] at ih
      by_cases hc : c = '/'
      · subst hc
        have h1 : splitOnSlash ('/' :: cs) = [] :: s₀ :: rest := by
          simp [splitOnSlash, hr]
        rw [h1]
        simp only [joinSlash, List.nil_append]
        rw [ih]
      · have h1 : splitOnSlash (c :: cs) = (c :: s₀) :: rest := by
          simp [splitOnSlash, hc, hr]
        rw [h1]
        cases rest with
        | nil =>
          simp only [joinSlash] at ih ⊢
          rw [ih]
        | cons s₁ rest' =>
          simp only [joinSlash, List.cons_append] at ih ⊢
          rw [ih]

/-- `splitOnSlash` is a right inverse of `joinSlash` on non-empty segment
lists whose segments contain no `'/'`. -/
theorem splitOnSlash_joinSlash (parts : List Str) (hne : parts ≠ [])
    (hseg : ∀ s ∈ parts, '/' ∉ s) :
    splitOnSlash (joinSlash parts) = parts := by
  induction parts with
  | nil => exact absurd rfl hne
  | cons p rest ih =>
    cases rest with
    | nil =>
      simp only [joinSlash]
      exact splitOnSlash_eq_single (hseg p (by simp))
    | cons q rest' =>
      have hrest : splitOnSlash (joinSlash (q :: rest')) = q :: rest' :=
        ih (by simp) (fun s hs => hseg s (List.mem_cons_of_mem p hs))
      have hj : joinSlash (p :: q :: rest') = p ++ '/' :: joinSlash (q :: rest') := by
        simp [joinSlash]
      rw [hj, splitOnSlash_append, splitOnSlash_eq_single (hseg p (by simp)), hrest]
      rfl

/-! ## Data model

`ModuleRow` and `SnippetRow` mirror the rows of the `modules` and `snippets`
tables created in `Database._init_database`; `Snip` mirrors the decrypted
`Snippet` dataclass returned by `get_snippet`.  `DB` is the database state:
both tables in rowid order plus the `AUTOINCREMENT` counters. -/

/-- The black-box encryption codec (`Fernet.encrypt` / `Fernet.decrypt`):
an arbitrary pure pair with a decrypt-after-encrypt round trip. -/
structure Codec where
  enc : Str → Str
  dec : Str → Str
  roundtrip : ∀ s, dec (enc s) = s

/-- The identity codec, used to instantiate witnesses. -/
def idCodec : Codec :=
  ⟨fun s => s, fun s => s, fun _ => rfl⟩

/-- A row of the `modules` table. -/
structure ModuleRow where
  id : Nat
  name : Str
  parentId : Option Nat
  createdAt : Nat
  updatedAt : Nat
deriving DecidableEq

/-- A row of the `snippets` table (ignoring the constant
`entity_type = 'snippet'` column). -/
structure SnippetRow where
  id : Nat
  name : Str
  moduleId : Option Nat
  contentEncrypted : Str
  isShared : Bool
  createdAt : Nat
  updatedAt : Nat
deriving DecidableEq

/-- The decrypted `Snippet` dataclass built by `Snippet.from_row`. -/
structure Snip where
  id : Nat
  name : Str
  content : Str
  isShared : Bool
  createdAt : Nat
  updatedAt : Nat
deriving DecidableEq

/-- The whole SQLite database: both tables in rowid order, plus the
`AUTOINCREMENT` counters. -/
structure DB where
  modules : List ModuleRow
  snippets : List SnippetRow
  nextModuleId : Nat
  nextSnippetId : Nat
deriving DecidableEq

/-- The empty (freshly initialized) database. -/
def DB.empty : DB :=
  ⟨[], [], 1, 1⟩

/-! ## Path resolver (`Database._split_path`, `Database._resolve_module_path`) -/

/-- `Database._split_path`: split `'module1/module2/snippet'` into
`(module_path, snippet_name)`; no `'/'` means a root-level name.
The final `module_path or None` turns an empty module path into `none`. -/
def splitPath (fullPath : Str) : Option Str × Str :=
  if '/' ∉ fullPath then (none, fullPath)
  else
    let parts := splitOnSlash fullPath
    let modulePath : Option Str :=
      if parts.length > 1 then some (joinSlash parts.dropLast) else none
    let snippetName := parts.getLastD []
    (match modulePath with
     | none => none
     | some m => if m = [] then none else some m,
     snippetName)

/-- The `SELECT ... FROM modules WHERE name = ? AND parent_id = ?`
(resp. `parent_id IS NULL`) lookup: first matching row in rowid order. -/
def findChild (mods : List ModuleRow) (name : Str) (parentId : Option Nat) :
    Option ModuleRow :=
  mods.find? (fun m => decide (m.name = name ∧ m.parentId = parentId))

/-- The segment loop of `Database._resolve_module_path`, threading the
`modules` table and the `AUTOINCREMENT` counter.  In create mode a missing
segment is inserted; in lookup mode it aborts with `none`. -/
def resolveLoop (create : Bool) (now : Nat) :
    List Str → Option Nat → Option ModuleRow → List ModuleRow → Nat →
      Option ModuleRow × List ModuleRow × Nat
  | [], _, cur, mods, next => (cur, mods, next)
  | seg :: rest, parentId, _, mods, next =>
    match findChild mods seg parentId with
    | some m => resolveLoop create now rest (some m.id) (some m) mods next
    | none =>
      match create with
      | true =>
        let m : ModuleRow := ⟨next, seg, parentId, now, now⟩
        resolveLoop create now rest (some m.id) (some m) (mods ++ [m]) (next + 1)
      | false => (none, mods, next)

/-- `Database._resolve_module_path`: resolve a module path to a module,
creating missing modules when `create = true`.  An empty path (Python
`if not module_path`) resolves to the root sentinel `none`. -/
def resolveModulePath (db : DB) (modulePath : Option Str) (create : Bool)
    (now : Nat) : Option ModuleRow × DB :=
  match modulePath with
  | none => (none, db)
  | some mp =>
    if mp = [] then (none, db)
    else
      match resolveLoop create now (splitOnSlash mp) none none db.modules
          db.nextModuleId with
      | (m, mods, next) => (m, { db with modules := mods, nextModuleId := next })

/-- `Database.get_module_by_path` (lookup mode never mutates the database,
so only the module component is returned; the timestamp is irrelevant). -/
def getModuleByPath (db : DB) (modulePath : Str) : Option ModuleRow :=
  (resolveModulePath db (some modulePath) false 0).1

/-- `Database.create_module_path` (the Python version asserts the result is
not `None`, which crashes on an empty path; the model keeps the option). -/
def createModulePath (db : DB) (modulePath : Str) (now : Nat) :
    Option ModuleRow × DB :=
  resolveModulePath db (some modulePath) true now

/-- Pure form of the lookup-mode segment walk, for stating lemmas. -/
def lookupSegs (mods : List ModuleRow) :
    List Str → Option Nat → Option ModuleRow → Option ModuleRow
  | [], _, cur => cur
  | seg :: rest, parentId, _ =>
    match findChild mods seg parentId with
    | none => none
    | some m => lookupSegs mods rest (some m.id) (some m)

theorem resolveLoop_lookup (now : Nat) (segs : List Str) (pid : Option Nat)
    (cur : Option ModuleRow) (mods : List ModuleRow) (next : Nat) :
    resolveLoop false now segs pid cur mods next =
      (lookupSegs mods segs pid cur, mods, next) := by
  induction segs generalizing pid cur with
  | nil => rfl
  | cons seg rest ih =>
    simp only [resolveLoop, lookupSegs]
    cases findChild mods seg pid with
    | none => simp
    | some m => simp [ih]

theorem resolveModulePath_lookup (db : DB) (mp : Option Str) (now : Nat) :
    resolveModulePath db mp false now =
      ((match mp with
        | none => none
        | some p =>
          if p = [] then none
          else lookupSegs db.modules (splitOnSlash p) none none), db) := by
  cases mp with
  | none => rfl
  | some p =>
    simp only [resolveModulePath]
    split
    · rfl
    · rw [resolveLoop_lookup]

theorem getModuleByPath_eq (db : DB) (p : Str) :
    getModuleByPath db p =
      (if p = [] then none else lookupSegs db.modules (splitOnSlash p) none none) := by
  simp [getModuleByPath, resolveModulePath_lookup]

/-! ## Snippet store (`Database.save_snippet`, `get_snippet`, …) -/

/-- The `SELECT ... FROM snippets WHERE name = ? AND module_id = ?`
(resp. `module_id IS NULL`) lookup: first matching row in rowid order. -/
def findSnip (snips : List SnippetRow) (name : Str) (moduleId : Option Nat) :
    Option SnippetRow :=
  snips.find? (fun s => decide (s.name = name ∧ s.moduleId = moduleId))

/-- `Database._get_snippet_row_by_path`.  Note Python's `if module is None`
branch fires both when the path is root-level and when the module path fails
to resolve, so an unresolvable module path falls back to a root-level
lookup. -/
def getSnippetRowByPath (db : DB) (fullPath : Str) : Option SnippetRow :=
  match (resolveModulePath db (splitPath fullPath).1 false 0).1 with
  | none => findSnip db.snippets (splitPath fullPath).2 none
  | some m => findSnip db.snippets (splitPath fullPath).2 (some m.id)

/-- `Snippet.from_row` applied to a fetched row, with the content decrypted. -/
def rowToSnip (κ : Codec) (row : SnippetRow) : Snip :=
  ⟨row.id, row.name, κ.dec row.contentEncrypted, row.isShared,
    row.createdAt, row.updatedAt⟩

/-- `Database.get_snippet`: fetch the row and decrypt its content. -/
def getSnippet (κ : Codec) (db : DB) (fullPath : Str) : Option Snip :=
  match getSnippetRowByPath db fullPath with
  | none => none
  | some row => some (rowToSnip κ row)

/-- Whether the `INSERT INTO snippets` raises `sqlite3.IntegrityError`:
the unique index is on `(module_id, name)`, and SQLite treats NULL
`module_id`s as pairwise distinct, so a root-level insert never conflicts. -/
def snippetInsertConflict (snips : List SnippetRow) (name : Str)
    (moduleId : Option Nat) : Bool :=
  match moduleId with
  | none => false
  | some mid => snips.any (fun s => decide (s.name = name ∧ s.moduleId = some mid))

/-- `Database.save_snippet`: resolve/create the module path, try to insert,
and on `IntegrityError` update the existing row's content and `updated_at`
instead.  Returns `true` if inserted, `false` if updated. -/
def saveSnippet (κ : Codec) (db : DB) (fullPath content : Str) (now : Nat) :
    Bool × DB :=
  match splitPath fullPath with
  | (modulePath, snippetName) =>
    match resolveModulePath db modulePath true now with
    | (module?, db₁) =>
      let moduleId := module?.map (fun m => m.id)
      let encrypted := κ.enc content
      if snippetInsertConflict db₁.snippets snippetName moduleId then
        (false,
          { db₁ with
            snippets := db₁.snippets.map (fun s =>
              if s.name = snippetName ∧ s.moduleId = moduleId then
                { s with contentEncrypted := encrypted, updatedAt := now }
              else s) })
      else
        (true,
          { db₁ with
            snippets := db₁.snippets ++
              [⟨db₁.nextSnippetId, snippetName, moduleId, encrypted, false,
                now, now⟩],
            nextSnippetId := db₁.nextSnippetId + 1 })

/-! ## Module tree deletion (`Database.delete_module_tree`)

The source collects the transitive closure of descendant module ids with an
explicit stack (`to_visit.pop()` / `extend(children)`).  The model computes
the same set of ids by saturating the one-step child relation; `mods.length + 1`
rounds always suffice to reach the fixed point (proved below).  On states whose
parent pointers form a cycle the source traversal would not terminate; such
states also make the saturation bound moot, but they never arise from the
operations of this interface starting from a well-formed store. -/

/-- One saturation step: add the ids of all modules whose parent is already
collected. -/
def descStep (mods : List ModuleRow) (ids : List Nat) : List Nat :=
  ids ++ (mods.filter (fun m =>
    decide (m.id ∉ ids ∧ m.parentId ∈ ids.map some))).map (fun m => m.id)

def descIter (mods : List ModuleRow) : Nat → List Nat → List Nat
  | 0, ids => ids
  | k + 1, ids => descIter mods k (descStep mods ids)

/-- All ids collected by the source's stack traversal: the root module id
together with every transitive descendant module id. -/
def subtreeIds (mods : List ModuleRow) (rootId : Nat) : List Nat :=
  descIter mods (mods.length + 1) [rootId]

/-- `Database.delete_module_tree`: resolve the module, collect the id closure,
delete all snippets in those modules and the modules themselves. -/
def deleteModuleTree (db : DB) (modulePath : Str) : Bool × DB :=
  match getModuleByPath db modulePath with
  | none => (false, db)
  | some module =>
    let allIds := subtreeIds db.modules module.id
    if allIds = [] then (false, db)
    else
      (true,
        { db with
          snippets := db.snippets.filter (fun s =>
            decide (s.moduleId ∉ allIds.map some)),
          modules := db.modules.filter (fun m => decide (m.id ∉ allIds)) })

/-! ## Rename operations (`Database.rename_snippet`, `Database.rename_module`) -/

/-- Whether the `UPDATE snippets SET name = ?, module_id = ? WHERE id = ?`
raises `sqlite3.IntegrityError` (unique index on `(module_id, name)`,
NULLs pairwise distinct). -/
def snippetUpdateConflict (snips : List SnippetRow) (selfId : Nat) (name : Str)
    (moduleId : Option Nat) : Bool :=
  match moduleId with
  | none => false
  | some mid =>
    snips.any (fun s => decide (s.id ≠ selfId ∧ s.name = name ∧ s.moduleId = some mid))

/-- `Database.rename_snippet`: fail if the old path does not resolve or the
new path already resolves, then update the single row's `name`, `module_id`
and `updated_at`.  The new module path is resolved with `create=False`; an
unresolvable new module path silently yields the root (`None`). -/
def renameSnippet (κ : Codec) (db : DB) (oldPath newPath : Str) (now : Nat) :
    Bool × DB :=
  match getSnippet κ db oldPath with
  | none => (false, db)
  | some snippet =>
    if (getSnippet κ db newPath).isSome then (false, db)
    else
      match splitPath newPath with
      | (newModulePath, newSnippetName) =>
        let newModule? := (resolveModulePath db newModulePath false 0).1
        let newModuleId := newModule?.map (fun m => m.id)
        if snippetUpdateConflict db.snippets snippet.id newSnippetName newModuleId then
          (false, db)
        else
          (true,
            { db with snippets := db.snippets.map (fun s =>
                if s.id = snippet.id then
                  { s with
                    name := newSnippetName
                    moduleId := newModuleId
                    updatedAt := now }
                else s) })

/-- `new_parts[-1]` in `Database.rename_module`. -/
def renameModuleNewName (newPath : Str) : Str :=
  (splitOnSlash newPath).getLastD []

/-- `"/".join(new_parts[:-1]) if len(new_parts) > 1 else None` in
`Database.rename_module`. -/
def renameModuleNewParentPath (newPath : Str) : Option Str :=
  if (splitOnSlash newPath).length > 1 then
    some (joinSlash (splitOnSlash newPath).dropLast)
  else none

/-- Whether the `UPDATE modules SET name = ?, parent_id = ? WHERE id = ?`
raises `sqlite3.IntegrityError` (unique index on `(parent_id, name)`,
NULLs pairwise distinct). -/
def moduleUpdateConflict (mods : List ModuleRow) (selfId : Nat) (name : Str)
    (parentId : Option Nat) : Bool :=
  match parentId with
  | none => false
  | some pid =>
    mods.any (fun m => decide (m.id ≠ selfId ∧ m.name = name ∧ m.parentId = some pid))

/-- The commit step of `Database.rename_module`: the guarded `UPDATE`. -/
def renameModuleApply (db : DB) (oldModule : ModuleRow) (newName : Str)
    (newParentId : Option Nat) (now : Nat) : Bool × DB :=
  if moduleUpdateConflict db.modules oldModule.id newName newParentId then
    (false, db)
  else
    (true,
      { db with modules := db.modules.map (fun m =>
          if m.id = oldModule.id then
            { m with name := newName, parentId := newParentId, updatedAt := now }
          else m) })

/-- `Database.rename_module`: resolve the old module; determine the target
parent (same parent for a bare new name, otherwise the pre-existing module at
the new parent path); reject sibling-name conflicts and an existing distinct
module at the full new path; then update the single module row. -/
def renameModule (db : DB) (oldPath newPath : Str) (now : Nat) : Bool × DB :=
  match getModuleByPath db oldPath with
  | none => (false, db)
  | some oldModule =>
    let newName := renameModuleNewName newPath
    let newParentPath := renameModuleNewParentPath newPath
    let newParentId? : Option (Option Nat) :=
      match newParentPath with
      | none => some oldModule.parentId
      | some pp =>
        match getModuleByPath db pp with
        | none => none
        | some newParent => some (some newParent.id)
    match newParentId? with
    | none => (false, db)
    | some newParentId =>
      if db.modules.any (fun m =>
          decide (m.name = newName ∧ m.parentId = newParentId ∧ m.id ≠ oldModule.id)) then
        (false, db)
      else
        let fullNewPath :=
          match newParentPath with
          | some pp => if pp ≠ [] then newPath else newName
          | none => newName
        match getModuleByPath db fullNewPath with
        | some existingModule =>
          if existingModule.id ≠ oldModule.id then (false, db)
          else renameModuleApply db oldModule newName newParentId now
        | none => renameModuleApply db oldModule newName newParentId now

/-! ## Listing (`Database.list_snippets`, `Database._build_snippet_full_path_rows`) -/

/-- Byte-wise (code-point) strict order on strings, the order SQLite's
default BINARY collation gives `ORDER BY name`. -/
def strLt : Str → Str → Bool
  | [], [] => false
  | [], _ :: _ => true
  | _ :: _, [] => false
  | a :: as, b :: bs => if a < b then true else if b < a then false else strLt as bs

/-- Insert a row into a name-sorted list, after any equal-named rows
(so that the sort is stable: ties stay in rowid order). -/
def insertByName (s : SnippetRow) : List SnippetRow → List SnippetRow
  | [] => [s]
  | t :: ts => if strLt t.name s.name then t :: insertByName s ts else s :: t :: ts

/-- `SELECT ... ORDER BY name`: stable sort of the rowid-ordered table by
snippet name. -/
def sortByName : List SnippetRow → List SnippetRow
  | [] => []
  | s :: rest => insertByName s (sortByName rest)

/-- `build_module_path` in `_build_snippet_full_path_rows`: walk the parent
chain upwards, joining names; a dangling module id yields `""`.  The source
recurses without bound (memoized); fuel `mods.length` suffices on every state
whose parent pointers are acyclic, and on a cyclic state the source would not
terminate. -/
def buildModulePath (mods : List ModuleRow) : Nat → Nat → Str
  | 0, _ => []
  | fuel + 1, mid =>
    match mods.find? (fun m => decide (m.id = mid)) with
    | none => []
    | some m =>
      match m.parentId with
      | none => m.name
      | some p =>
        let parentPath := buildModulePath mods fuel p
        if parentPath ≠ [] then parentPath ++ '/' :: m.name else m.name

/-- Full path of one snippet row, as computed per row by
`_build_snippet_full_path_rows`. -/
def snippetFullPath (mods : List ModuleRow) (s : SnippetRow) : Str :=
  match s.moduleId with
  | none => s.name
  | some mid =>
    let modulePath := buildModulePath mods mods.length mid
    if modulePath ≠ [] then modulePath ++ '/' :: s.name else s.name

/-- Python `str.lower()`. -/
def toLowerStr (s : Str) : Str :=
  s.map Char.toLower

/-- Python `needle == hay[:len(needle)]`: `hay` starts with `needle`. -/
def strTakes : Str → Str → Bool
  | [], _ => true
  | _ :: _, [] => false
  | a :: as, b :: bs => a = b && strTakes as bs

/-- Python `needle in hay`: contiguous substring test. -/
def strInStr (needle : Str) : Str → Bool
  | [] => strTakes needle []
  | c :: t => strTakes needle (c :: t) || strInStr needle t

/-- `Database.list_snippets`: all snippet full paths from the name-ordered
rows, filtered (when a non-empty keyword is given) by a case-insensitive
substring test on the full path. -/
def listSnippets (db : DB) (keyword : Option Str) : List Str :=
  let paths := (sortByName db.snippets).map (snippetFullPath db.modules)
  match keyword with
  | some k =>
    if k ≠ [] then
      paths.filter (fun p => strInStr (toLowerStr k) (toLowerStr p))
    else paths
  | none => paths

/-! ## Well-formedness invariants

These are the schema invariants of the store: distinct rowids, the
uniqueness constraints the two unique indexes are meant to enforce, and
acyclicity of module parent pointers (expressed by a rank function). -/

/-- No two module rows share `(parent_id, name)`. -/
def ModNamesUnique (mods : List ModuleRow) : Prop :=
  List.Pairwise (fun a b => ¬(a.name = b.name ∧ a.parentId = b.parentId)) mods

instance (mods : List ModuleRow) : Decidable (ModNamesUnique mods) :=
  decidable_of_iff
    (List.Pairwise
      (fun a b : ModuleRow => ¬(a.name = b.name ∧ a.parentId = b.parentId)) mods)
    Iff.rfl

/-- Module ids are pairwise distinct. -/
def ModIdsNodup (mods : List ModuleRow) : Prop :=
  (mods.map (fun m => m.id)).Nodup

instance (mods : List ModuleRow) : Decidable (ModIdsNodup mods) :=
  decidable_of_iff ((mods.map (fun m : ModuleRow => m.id)).Nodup) Iff.rfl

/-- No two snippet rows share `(module_id, name)`. -/
def SnipKeysUnique (snips : List SnippetRow) : Prop :=
  List.Pairwise (fun a b => ¬(a.name = b.name ∧ a.moduleId = b.moduleId)) snips

instance (snips : List SnippetRow) : Decidable (SnipKeysUnique snips) :=
  decidable_of_iff
    (List.Pairwise
      (fun a b : SnippetRow => ¬(a.name = b.name ∧ a.moduleId = b.moduleId)) snips)
    Iff.rfl

/-- Snippet ids are pairwise distinct. -/
def SnipIdsNodup (snips : List SnippetRow) : Prop :=
  (snips.map (fun s => s.id)).Nodup

instance (snips : List SnippetRow) : Decidable (SnipIdsNodup snips) :=
  decidable_of_iff ((snips.map (fun s : SnippetRow => s.id)).Nodup) Iff.rfl

/-- The rank of a module strictly exceeds its parent's rank. -/
def parentRankOk (rank : Nat → Nat) (m : ModuleRow) : Prop :=
  match m.parentId with
  | none => True
  | some p => rank p < rank m.id

instance (rank : Nat → Nat) (m : ModuleRow) : Decidable (parentRankOk rank m) :=
  match hp : m.parentId with
  | none => isTrue (by unfold parentRankOk; rw [hp]; trivial)
  | some p =>
    decidable_of_iff (rank p < rank m.id) (by unfold parentRankOk; rw [hp])

/-- Module parent pointers are acyclic: some rank strictly drops from child
to parent. -/
def ModAcyclic (mods : List ModuleRow) : Prop :=
  ∃ rank : Nat → Nat, ∀ m ∈ mods, parentRankOk rank m

/-- All module ids are below the `AUTOINCREMENT` counter. -/
def ModIdsFresh (db : DB) : Prop :=
  ∀ m ∈ db.modules, m.id < db.nextModuleId

instance (db : DB) : Decidable (ModIdsFresh db) :=
  decidable_of_iff (∀ m ∈ db.modules, m.id < db.nextModuleId) Iff.rfl

/-! ## Generic `find?` lemmas -/

theorem find?_filter_of_find? {α : Type} (p q : α → Bool) (l : List α) (a : α)
    (hf : l.find? p = some a) (hq : q a = true) :
    (l.filter q).find? p = some a := by
  induction l with
  | nil => simp at hf
  | cons x xs ih =>
    by_cases hx : p x = true
    · rw [List.find?_cons_of_pos _ hx] at hf
      cases hf
      rw [List.filter_cons, if_pos hq, List.find?_cons_of_pos _ hx]
    · rw [List.find?_cons_of_neg _ hx] at hf
      rw [List.filter_cons]
      split
      · rw [List.find?_cons_of_neg _ hx]
        exact ih hf
      · exact ih hf

theorem find?_filter_of_none {α : Type} (p q : α → Bool) (l : List α)
    (hf : l.find? p = none) :
    (l.filter q).find? p = none := by
  rw [List.find?_eq_none] at hf ⊢
  intro x hx
  exact hf x (List.mem_of_mem_filter hx)

theorem find?_filter_of_unique_drop {α : Type} (p q : α → Bool) (l : List α)
    (a : α) (hf : l.find? p = some a) (hq : q a = false)
    (huniq : ∀ x ∈ l, p x = true → x = a) :
    (l.filter q).find? p = none := by
  rw [List.find?_eq_none]
  intro x hx hpx
  have hmem := List.mem_of_mem_filter hx
  have hqx := List.of_mem_filter hx
  have : x = a := huniq x hmem hpx
  subst this
  rw [hq] at hqx
  exact absurd hqx (by simp)

theorem find?_congr {α : Type} (p q : α → Bool) (l : List α)
    (h : ∀ x ∈ l, p x = q x) : l.find? p = l.find? q := by
  induction l with
  | nil => rfl
  | cons x xs ih =>
    by_cases hx : p x = true
    · rw [List.find?_cons_of_pos _ hx, List.find?_cons_of_pos _ ((h x (by simp)) ▸ hx)]
    · rw [List.find?_cons_of_neg _ hx, List.find?_cons_of_neg _ ((h x (by simp)) ▸ hx)]
      exact ih (fun y hy => h y (List.mem_cons_of_mem x hy))

/-! ## C2: split/reconstruct round trip -/

/-- A path is valid when all its slash-separated segments are non-empty
(no leading, trailing or doubled `'/'`, and the path itself is non-empty). -/
def ValidPath (p : Str) : Prop :=
  ∀ s ∈ splitOnSlash p, s ≠ []

instance : DecidablePred ValidPath := fun p =>
  decidable_of_iff (∀ s ∈ splitOnSlash p, s ≠ []) Iff.rfl

/-- Reconstruct a full path from a `(module_path, name)` split, the way the
listing code rebuilds it: `module_path + "/" + name`, or just `name` at root. -/
def joinSplit : Option Str × Str → Str
  | (none, name) => name
  | (some mp, name) => mp ++ '/' :: name

theorem splitOnSlash_length_ge_two {p : Str} (h : '/' ∈ p) :
    2 ≤ (splitOnSlash p).length := by
  induction p with
  | nil => simp at h
  | cons c cs ih =>
    by_cases hc : c = '/'
    · subst hc
      have h1 : splitOnSlash ('/' :: cs) = [] :: splitOnSlash cs := by
        simp [splitOnSlash]
      rw [h1, List.length_cons]
      have h2 : 1 ≤ (splitOnSlash cs).length := by
        cases hcs : splitOnSlash cs with
        | nil => exact absurd hcs (splitOnSlash_ne_nil cs)
        | cons _ _ => simp
      omega
    · have hcs : '/' ∈ cs := by
        rcases List.mem_cons.1 h with h' | h'
        · exact absurd h'.symm hc
        · exact h'
      rcases hr : splitOnSlash cs with _ | ⟨s₀, rest⟩
      · exact absurd hr (splitOnSlash_ne_nil cs)
      · have := ih hcs
        rw [hr] at this
        simp only [splitOnSlash, if_neg hc, hr]
        simpa using this

theorem joinSlash_ne_nil {parts : List Str} (hne : parts ≠ [])
    (hseg : ∀ s ∈ parts, s ≠ []) : joinSlash parts ≠ [] := by
  cases parts with
  | nil => exact absurd rfl hne
  | cons s rest =>
    cases rest with
    | nil =>
      simp only [joinSlash]
      exact hseg s (by simp)
    | cons t r =>
      simp only [joinSlash]
      cases s <;> simp

theorem joinSlash_dropLast {parts : List Str} (h : 2 ≤ parts.length) :
    joinSlash parts = joinSlash parts.dropLast ++ '/' :: parts.getLastD [] := by
  induction parts with
  | nil => simp at h
  | cons a rest ih =>
    cases rest with
    | nil => simp at h
    | cons b r =>
      cases r with
      | nil => simp [joinSlash]
      | cons c r' =>
        have h2 : 2 ≤ (b :: c :: r').length := by simp
        have ihr := ih h2
        have hd : (a :: b :: c :: r').dropLast = a :: (b :: c :: r').dropLast := by
          simp
        have hdl : (b :: c :: r').dropLast ≠ [] := by
          simp
        rw [hd]
        have hjoin : joinSlash (a :: (b :: c :: r').dropLast) =
            a ++ '/' :: joinSlash ((b :: c :: r').dropLast) := by
          cases hdd : (b :: c :: r').dropLast with
          | nil => exact absurd hdd hdl
          | cons u v => simp [joinSlash]
        rw [hjoin]
        have : joinSlash (a :: b :: c :: r') = a ++ '/' :: joinSlash (b :: c :: r') := by
          simp [joinSlash]
        rw [this, ihr]
        simp

/-- **C2.** For every valid path string `p` (segments non-empty, hence no
trailing `'/'`), splitting with `_split_path` and rejoining module path and
name with `'/'` yields `p` exactly. -/
theorem claim_C2_split_join_roundtrip (p : Str) (hv : ValidPath p) :
    joinSplit (splitPath p) = p := by
  by_cases hmem : '/' ∈ p
  · have hlen := splitOnSlash_length_ge_two hmem
    have hlast : (splitOnSlash p).dropLast ≠ [] := by
      intro hd
      have := congrArg List.length hd
      rw [List.length_dropLast] at this
      simp at this
      omega
    have hsegs : ∀ s ∈ (splitOnSlash p).dropLast, s ≠ [] := by
      intro s hs
      exact hv s (List.dropLast_subset _ hs)
    have hmp : joinSlash (splitOnSlash p).dropLast ≠ [] :=
      joinSlash_ne_nil hlast hsegs
    have hgt : (splitOnSlash p).length > 1 := by omega
    have hsp : splitPath p =
        (some (joinSlash (splitOnSlash p).dropLast), (splitOnSlash p).getLastD []) := by
      simp only [splitPath]
      rw [if_neg (not_not_intro hmem)]
      simp only [if_pos hgt]
      rw [if_neg hmp]
    rw [hsp]
    simp only [joinSplit]
    rw [← joinSlash_dropLast hlen, joinSlash_splitOnSlash]
  · simp [splitPath, hmem, joinSplit]

/-- Witness for C2 at the concrete path `tools/git/commit`. -/
theorem claim_C2_witness :
    ValidPath ("tools/git/commit".toList) ∧
      joinSplit (splitPath ("tools/git/commit".toList)) = "tools/git/commit".toList :=
  ⟨by decide, claim_C2_split_join_roundtrip _ (by decide)⟩

/-! ## C1/C3: the root-level upsert escape

`save_snippet` relies on the unique index on `(module_id, name)` to turn a
second save of the same path into an update.  For root-level snippets
`module_id` is NULL, SQLite treats NULLs as pairwise distinct in unique
indexes, so the second `INSERT` succeeds: a duplicate row is created, the
function reports "created", and `get_snippet` keeps returning the first
(old) row. -/

/-- State after `save_snippet("x", "one")` on a fresh store. -/
def rootSaveOnce : DB :=
  (saveSnippet idCodec DB.empty ['x'] ("one".toList) 1).2

/-- Result of the subsequent `save_snippet("x", "two")`. -/
def rootSaveTwice : Bool × DB :=
  saveSnippet idCodec rootSaveOnce ['x'] ("two".toList) 2

/-- **C1 (failing evaluation).** After `save_snippet("x", "one")` and
`save_snippet("x", "two")`, `get_snippet("x")` returns content `"one"`,
not the just-saved `"two"`: the second root-level insert bypassed the
unique index and produced a duplicate row, and the keyed `SELECT` returns
the first row in rowid order. -/
theorem claim_C1_save_get_bug :
    (getSnippet idCodec rootSaveTwice.2 ['x']).map (fun s => s.content) =
        some ("one".toList) ∧
      (getSnippet idCodec rootSaveTwice.2 ['x']).map (fun s => s.content) ≠
        some ("two".toList) := by
  decide

/-- **C3 (failing evaluation).** The second `save_snippet("x", "two")` on the
same root path returns `true` ("created") instead of the claimed `false`
("updated"), and leaves two rows named `x` at root with the first one still
holding `"one"`. -/
theorem claim_C3_upsert_bug :
    rootSaveTwice.1 = true ∧
      rootSaveTwice.2.snippets.length = 2 ∧
      (getSnippet idCodec rootSaveTwice.2 ['x']).map (fun s => s.content) =
        some ("one".toList) := by
  decide

/-! ## C5: rename does not create modules -/

/-- A store with a single root snippet `x` and no modules. -/
def renameNoModuleDb : DB :=
  (saveSnippet idCodec DB.empty ['x'] ['v'] 1).2

/-- Result of `rename_snippet("x", "m/y")` with no module `m` in the store. -/
def renameNoModuleRes : Bool × DB :=
  renameSnippet idCodec renameNoModuleDb ['x'] ("m/y".toList) 2

/-- **C5 (counterexample).** `rename_snippet("x", "m/y")` with module `m`
missing succeeds, yet creates no module at all and stores the snippet at the
root under the bare name `y` — not "under exactly the module path named in
new" as the claim states. -/
theorem claim_C5_counterexample :
    renameNoModuleRes.1 = true ∧
      renameNoModuleRes.2.modules = [] ∧
      renameNoModuleRes.2.snippets.map (fun s => (s.name, s.moduleId)) =
        [(['y'], none)] := by
  decide

/-- **C5 (amended).** `rename_snippet` resolves the new module path in
lookup mode and never creates modules; whenever the new module path does not
resolve (or names the root), a successful rename re-keys the snippet row to
the root with the new leaf name. -/
theorem claim_C5_amended (κ : Codec) (db : DB) (old new : Str) (now : Nat)
    (hmod : (resolveModulePath db (splitPath new).1 false 0).1 = none) :
    (renameSnippet κ db old new now).2.modules = db.modules ∧
    ((renameSnippet κ db old new now).1 = true →
      ∃ s, getSnippet κ db old = some s ∧
        (renameSnippet κ db old new now).2.snippets =
          db.snippets.map (fun r =>
            if r.id = s.id then
              { r with
                name := (splitPath new).2
                moduleId := none
                updatedAt := now }
            else r)) := by
  unfold renameSnippet
  split
  · exact ⟨rfl, by intro h; simp at h⟩
  · rename_i s hold
    split
    · exact ⟨rfl, by intro h; simp at h⟩
    · rename_i hnew
      split
      rename_i nm nn hsp
      rw [hsp] at hmod
      simp only at hmod
      simp only [hmod, Option.map_none', snippetUpdateConflict]
      refine ⟨rfl, fun _ => ⟨s, hold, ?_⟩⟩
      rw [hsp]
      simp

/-- Witness for the amended C5 on the concrete one-snippet store. -/
theorem claim_C5_amended_witness :
    (resolveModulePath renameNoModuleDb (splitPath ("m/y".toList)).1 false 0).1
        = none ∧
      (renameSnippet idCodec renameNoModuleDb ['x'] ("m/y".toList) 2).2.modules =
        renameNoModuleDb.modules :=
  ⟨by decide,
    (claim_C5_amended idCodec renameNoModuleDb ['x'] ("m/y".toList) 2
      (by decide)).1⟩

/-! ## C10: no empty-content validation in the storage layer -/

/-- **C10 (counterexample).** `save_snippet("x", "")` does not leave the
store unchanged: it inserts a root snippet row whose (encrypted) content is
the encryption of the empty string. -/
theorem claim_C10_counterexample :
    (saveSnippet idCodec DB.empty ['x'] [] 1).2 ≠ DB.empty ∧
      (saveSnippet idCodec DB.empty ['x'] [] 1).2.snippets.map
          (fun s => (s.name, s.contentEncrypted)) = [(['x'], [])] := by
  decide

/-- **C10 (amended).** The storage layer performs no empty-content
validation: `save_snippet(p, "")` takes exactly the same code path as
`save_snippet(p, c)` for any content `c` — same created/updated result, same
module store, and the same snippet rows up to the stored encrypted content.
(The empty-content rejection lives in the CLI layer, before `save_snippet`
is called.) -/
theorem claim_C10_amended (κ : Codec) (db : DB) (p : Str) (now : Nat) (c : Str) :
    (saveSnippet κ db p [] now).1 = (saveSnippet κ db p c now).1 ∧
    (saveSnippet κ db p [] now).2.modules = (saveSnippet κ db p c now).2.modules ∧
    (saveSnippet κ db p [] now).2.snippets.map
        (fun s => (s.id, s.name, s.moduleId, s.isShared, s.updatedAt)) =
      (saveSnippet κ db p c now).2.snippets.map
        (fun s => (s.id, s.name, s.moduleId, s.isShared, s.updatedAt)) := by
  unfold saveSnippet
  cases hsp : splitPath p with
  | mk mp name =>
    by_cases hc : snippetInsertConflict (resolveModulePath db mp true now).2.snippets
        name (Option.map (fun m => m.id) (resolveModulePath db mp true now).1) = true
    · simp only [if_pos hc]
      refine ⟨?_, ?_, ?_⟩
      · trivial
      · trivial
      · rw [List.map_map, List.map_map]
        apply List.map_congr_left
        intro s _
        by_cases hs : s.name = name ∧
            s.moduleId = Option.map (fun m => m.id) (resolveModulePath db mp true now).1
        · simp [Function.comp, hs]
        · simp [Function.comp, hs]
    · simp only [if_neg hc]
      refine ⟨?_, ?_, ?_⟩
      · trivial
      · trivial
      · simp [List.map_append]

/-! ## C4: rename_snippet -/

/-- The `(module_id)` key that `_get_snippet_row_by_path` looks a snippet up
under: the resolved module's id, or `none` both for root paths and for
module paths that fail to resolve (Python's `if module is None` conflates
the two, which is the root-fallback behaviour of `get_snippet`). -/
def snipLookupKey (db : DB) (p : Str) : Option Nat :=
  ((resolveModulePath db (splitPath p).1 false 0).1).map (fun m => m.id)

theorem getSnippet_eq_map (κ : Codec) (db : DB) (p : Str) :
    getSnippet κ db p = (getSnippetRowByPath db p).map (rowToSnip κ) := by
  unfold getSnippet
  cases getSnippetRowByPath db p <;> rfl

theorem getSnippetRowByPath_eq (db : DB) (p : Str) :
    getSnippetRowByPath db p =
      findSnip db.snippets (splitPath p).2 (snipLookupKey db p) := by
  unfold getSnippetRowByPath snipLookupKey
  cases (resolveModulePath db (splitPath p).1 false 0).1 <;> rfl

theorem snipLookupKey_congr {db db' : DB} (h : db'.modules = db.modules)
    (p : Str) : snipLookupKey db' p = snipLookupKey db p := by
  unfold snipLookupKey
  rw [resolveModulePath_lookup, resolveModulePath_lookup, h]

theorem findSnip_eq_none {snips : List SnippetRow} {name : Str}
    {mid : Option Nat} :
    findSnip snips name mid = none ↔
      ∀ x ∈ snips, ¬(x.name = name ∧ x.moduleId = mid) := by
  unfold findSnip
  rw [List.find?_eq_none]
  simp

theorem findSnip_some {snips : List SnippetRow} {name : Str} {mid : Option Nat}
    {row : SnippetRow} (h : findSnip snips name mid = some row) :
    row ∈ snips ∧ row.name = name ∧ row.moduleId = mid := by
  unfold findSnip at h
  have hm := List.mem_of_find?_eq_some h
  have hp := List.find?_some h
  simp at hp
  exact ⟨hm, hp⟩

theorem find?_map_update_some {α : Type} (l : List α) (p : α → Bool)
    (f : α → α) (a : α) (ha : a ∈ l) (hfa : p (f a) = true)
    (hfix : ∀ x ∈ l, x ≠ a → f x = x) (hnone : ∀ x ∈ l, p x = false) :
    (l.map f).find? p = some (f a) := by
  induction l with
  | nil => simp at ha
  | cons y t ih =>
    rw [List.map_cons]
    by_cases hy : y = a
    · subst hy
      rw [List.find?_cons_of_pos _ hfa]
    · rw [hfix y (by simp) hy]
      rw [List.find?_cons_of_neg _ (by simp [hnone y (by simp)])]
      have ha' : a ∈ t := by
        rcases List.mem_cons.1 ha with h | h
        · exact absurd h.symm hy
        · exact h
      exact ih ha' (fun x hx => hfix x (List.mem_cons_of_mem y hx))
        (fun x hx => hnone x (List.mem_cons_of_mem y hx))

theorem find?_map_update_none {α : Type} (l : List α) (p : α → Bool)
    (f : α → α) (a : α) (hfa : p (f a) = false)
    (hfix : ∀ x ∈ l, x ≠ a → f x = x ∧ p x = false) :
    (l.map f).find? p = none := by
  induction l with
  | nil => rfl
  | cons y t ih =>
    rw [List.map_cons]
    by_cases hy : y = a
    · subst hy
      rw [List.find?_cons_of_neg _ (by simp [hfa])]
      exact ih (fun x hx => hfix x (List.mem_cons_of_mem y hx))
    · obtain ⟨hf, hp⟩ := hfix y (by simp) hy
      rw [hf, List.find?_cons_of_neg _ (by simp [hp])]
      exact ih (fun x hx => hfix x (List.mem_cons_of_mem y hx))

theorem snipKeysUnique_forall {snips : List SnippetRow}
    (h : SnipKeysUnique snips) :
    ∀ x ∈ snips, ∀ y ∈ snips, x ≠ y →
      ¬(x.name = y.name ∧ x.moduleId = y.moduleId) := by
  have hsymm : Symmetric
      (fun a b : SnippetRow => ¬(a.name = b.name ∧ a.moduleId = b.moduleId)) := by
    intro a b hab hcon
    exact hab ⟨hcon.1.symm, hcon.2.symm⟩
  intro x hx y hy hxy
  exact List.Pairwise.forall hsymm h hx hy hxy

/-- The row update performed by the `UPDATE snippets SET name, module_id,
updated_at WHERE id = ?` of `rename_snippet`. -/
def renameSnipUpd (newName : Str) (newKey : Option Nat) (sid : Nat) (now : Nat)
    (r : SnippetRow) : SnippetRow :=
  if r.id = sid then
    { r with name := newName, moduleId := newKey, updatedAt := now }
  else r

/-- `rename_snippet` on a resolvable old path and an unoccupied new path
always reaches the `UPDATE`, which re-keys the single row with the snippet's
id (the conflict branch is dead because the new key is either unoccupied or
NULL-moduled). -/
theorem renameSnippet_success (κ : Codec) (db : DB) (old new : Str) (now : Nat)
    (s : Snip) (hold : getSnippet κ db old = some s)
    (hnew : getSnippet κ db new = none) :
    renameSnippet κ db old new now =
      (true,
        { db with
          snippets := db.snippets.map
            (renameSnipUpd (splitPath new).2 (snipLookupKey db new) s.id now) }) := by
  have hrownew : getSnippetRowByPath db new = none := by
    rw [getSnippet_eq_map] at hnew
    cases hr : getSnippetRowByPath db new
    · rfl
    · rw [hr] at hnew; simp at hnew
  unfold renameSnippet
  split
  · rename_i h
    rw [hold] at h
    simp at h
  · rename_i s' hold'
    rw [hold] at hold'
    injection hold' with hss
    subst hss
    split
    · rename_i hsome
      rw [hnew] at hsome
      simp at hsome
    · split
      rename_i nm nn hsp
      have hkeynn : snipLookupKey db new =
          Option.map (fun m => m.id) (resolveModulePath db nm false 0).1 := by
        unfold snipLookupKey
        rw [hsp]
      have hnamenn : (splitPath new).2 = nn := by rw [hsp]
      have hconf : snippetUpdateConflict db.snippets s.id nn
          (Option.map (fun m => m.id) (resolveModulePath db nm false 0).1) = false := by
        cases hres : (resolveModulePath db nm false 0).1 with
        | none => rfl
        | some m =>
          rw [getSnippetRowByPath_eq, hkeynn, hnamenn, hres] at hrownew
          rw [findSnip_eq_none] at hrownew
          unfold snippetUpdateConflict
          simp only [Option.map_some']
          rw [List.any_eq_false]
          intro x hx
          simp only [decide_eq_true_eq, not_and]
          intro _ hname hmid
          exact hrownew x hx ⟨hname, hmid⟩
      rw [if_neg (by simp [hconf])]
      rw [hkeynn, hnamenn]
      rfl

theorem renameSnippet_old_none (κ : Codec) (db : DB) (old new : Str) (now : Nat)
    (h : getSnippet κ db old = none) :
    renameSnippet κ db old new now = (false, db) := by
  unfold renameSnippet
  rw [h]

theorem renameSnippet_new_some (κ : Codec) (db : DB) (old new : Str) (now : Nat)
    (h : (getSnippet κ db new).isSome = true) :
    renameSnippet κ db old new now = (false, db) := by
  unfold renameSnippet
  split
  · rfl
  · rw [if_pos h]

/-- **C4 (counterexample).** On the duplicate-row store left by the C1/C3
root-save bug (two rows named `x` at root), `rename_snippet("x", "y")`
succeeds — it re-keys only the first matching row — yet `get_snippet("x")`
afterwards still returns the surviving duplicate (content `"two"`), refuting
the claim's unconditional "`get_snippet(old)` is not-found". -/
theorem claim_C4_counterexample :
    (renameSnippet idCodec rootSaveTwice.2 ['x'] ['y'] 3).1 = true ∧
      (getSnippet idCodec (renameSnippet idCodec rootSaveTwice.2 ['x'] ['y'] 3).2
          ['x']).map (fun s => s.content) = some ("two".toList) := by
  decide

/-- **C4 (amended).** `rename_snippet(old, new)` fails with no mutation when
`old` does not resolve to a snippet or when `new` already resolves to one (no
silent overwrite); otherwise it succeeds, after which `get_snippet(new)`
returns the original snippet content (with its id) and `get_snippet(old)` is
not found.  The hypotheses are the schema invariants — distinct rowids and
`(module_id, name)` uniqueness — which nested paths always satisfy but the
root-level save bug (C1/C3) can violate: on a store holding duplicate root
rows the not-found conclusion fails (see the counterexample). -/
theorem claim_C4_rename_snippet (κ : Codec) (db : DB) (old new : Str) (now : Nat)
    (huniq : SnipKeysUnique db.snippets) (hids : SnipIdsNodup db.snippets) :
    (getSnippet κ db old = none → renameSnippet κ db old new now = (false, db)) ∧
    ((getSnippet κ db new).isSome = true →
      renameSnippet κ db old new now = (false, db)) ∧
    (∀ s, getSnippet κ db old = some s → getSnippet κ db new = none →
      (renameSnippet κ db old new now).1 = true ∧
      (getSnippet κ (renameSnippet κ db old new now).2 new).map
          (fun t => (t.id, t.content)) = some (s.id, s.content) ∧
      getSnippet κ (renameSnippet κ db old new now).2 old = none) := by
  refine ⟨renameSnippet_old_none κ db old new now,
    renameSnippet_new_some κ db old new now, ?_⟩
  intro s hold hnew
  have hsucc := renameSnippet_success κ db old new now s hold hnew
  have h1 : (renameSnippet κ db old new now).1 = true := by rw [hsucc]
  have hm : (renameSnippet κ db old new now).2.modules = db.modules := by
    rw [hsucc]
  have hs : (renameSnippet κ db old new now).2.snippets =
      db.snippets.map
        (renameSnipUpd (splitPath new).2 (snipLookupKey db new) s.id now) := by
    rw [hsucc]
  obtain ⟨row, hrow, hsrow⟩ :
      ∃ row, getSnippetRowByPath db old = some row ∧ s = rowToSnip κ row := by
    rw [getSnippet_eq_map] at hold
    cases hr : getSnippetRowByPath db old with
    | none => rw [hr] at hold; simp at hold
    | some r =>
      rw [hr] at hold
      simp at hold
      exact ⟨r, rfl, hold.symm⟩
  rw [getSnippetRowByPath_eq] at hrow
  obtain ⟨hmem, hrname, hrkey⟩ := findSnip_some hrow
  have hrowid : row.id = s.id := by rw [hsrow]; rfl
  have hnewnone : ∀ x ∈ db.snippets,
      ¬(x.name = (splitPath new).2 ∧ x.moduleId = snipLookupKey db new) := by
    have h1 : getSnippetRowByPath db new = none := by
      rw [getSnippet_eq_map] at hnew
      cases hr : getSnippetRowByPath db new with
      | none => rfl
      | some r => rw [hr] at hnew; simp at hnew
    rw [getSnippetRowByPath_eq, findSnip_eq_none] at h1
    exact h1
  have hinj : ∀ x ∈ db.snippets, ∀ y ∈ db.snippets, x.id = y.id → x = y := by
    intro x hx y hy hxy
    exact List.inj_on_of_nodup_map hids hx hy hxy
  have hfix : ∀ x ∈ db.snippets, x ≠ row →
      renameSnipUpd (splitPath new).2 (snipLookupKey db new) s.id now x = x := by
    intro x hx hxr
    unfold renameSnipUpd
    rw [if_neg]
    intro hxid
    exact hxr (hinj x hx row hmem (by rw [hxid, hrowid]))
  have hkeys := snipKeysUnique_forall huniq
  refine ⟨h1, ?_, ?_⟩
  · rw [getSnippet_eq_map, getSnippetRowByPath_eq, snipLookupKey_congr hm new, hs]
    have hfind : findSnip
        (db.snippets.map
          (renameSnipUpd (splitPath new).2 (snipLookupKey db new) s.id now))
        (splitPath new).2 (snipLookupKey db new) =
        some (renameSnipUpd (splitPath new).2 (snipLookupKey db new) s.id now row) := by
      unfold findSnip
      apply find?_map_update_some _ _ _ row hmem
      · simp [renameSnipUpd, hrowid]
      · exact hfix
      · intro x hx
        simpa using hnewnone x hx
    rw [hfind]
    have hupd : renameSnipUpd (splitPath new).2 (snipLookupKey db new) s.id now row =
        { row with
          name := (splitPath new).2
          moduleId := snipLookupKey db new
          updatedAt := now } := by
      unfold renameSnipUpd
      rw [if_pos hrowid]
    rw [hupd, hsrow]
    rfl
  · rw [getSnippet_eq_map, getSnippetRowByPath_eq, snipLookupKey_congr hm old, hs]
    have hfind : findSnip
        (db.snippets.map
          (renameSnipUpd (splitPath new).2 (snipLookupKey db new) s.id now))
        (splitPath old).2 (snipLookupKey db old) = none := by
      unfold findSnip
      apply find?_map_update_none _ _ _ row
      · rw [decide_eq_false_iff_not]
        rintro ⟨h1, h2⟩
        simp only [renameSnipUpd, if_pos hrowid] at h1 h2
        exact hnewnone row hmem ⟨hrname.trans h1.symm, hrkey.trans h2.symm⟩
      · intro x hx hxr
        refine ⟨hfix x hx hxr, ?_⟩
        rw [decide_eq_false_iff_not]
        rintro ⟨h1, h2⟩
        exact hkeys x hx row hmem hxr ⟨h1.trans hrname.symm, h2.trans hrkey.symm⟩
    rw [hfind]
    rfl

/-- A store with module `m`, snippet `m/q` and root snippet `x`, used to
witness C4. -/
def renameOkDb : DB :=
  (saveSnippet idCodec
    (saveSnippet idCodec DB.empty ("m/q".toList) ['z'] 1).2 ['x'] ['v'] 2).2

/-- Witness for C4: the concrete rename `x → m/y` on `renameOkDb`. -/
theorem claim_C4_witness :
    SnipKeysUnique renameOkDb.snippets ∧ SnipIdsNodup renameOkDb.snippets ∧
    (renameSnippet idCodec renameOkDb ['x'] ("m/y".toList) 3).1 = true ∧
    (getSnippet idCodec (renameSnippet idCodec renameOkDb ['x'] ("m/y".toList) 3).2
        ("m/y".toList)).map (fun t => (t.id, t.content)) = some (2, ['v']) ∧
    getSnippet idCodec
      (renameSnippet idCodec renameOkDb ['x'] ("m/y".toList) 3).2 ['x'] = none := by
  have hu : SnipKeysUnique renameOkDb.snippets := by decide
  have hi : SnipIdsNodup renameOkDb.snippets := by decide
  have h := (claim_C4_rename_snippet idCodec renameOkDb ['x'] ("m/y".toList) 3 hu hi).2.2
    ⟨2, ['x'], ['v'], false, 2, 2⟩ (by decide) (by decide)
  exact ⟨hu, hi, h.1, h.2.1, h.2.2⟩

/-! ## C8: create_module_path idempotence -/

theorem find?_append_of_none {α : Type} {p : α → Bool} {l₁ : List α}
    (l₂ : List α) (h : l₁.find? p = none) :
    (l₁ ++ l₂).find? p = l₂.find? p := by
  induction l₁ with
  | nil => rfl
  | cons x xs ih =>
    by_cases hx : p x = true
    · rw [List.find?_cons_of_pos _ hx] at h
      cases h
    · rw [List.find?_cons_of_neg _ hx] at h
      rw [List.cons_append, List.find?_cons_of_neg _ hx]
      exact ih h

theorem find?_append_some {α : Type} {p : α → Bool} {l₁ : List α} {a : α}
    (l₂ : List α) (h : l₁.find? p = some a) :
    (l₁ ++ l₂).find? p = some a := by
  induction l₁ with
  | nil => cases h
  | cons x xs ih =>
    by_cases hx : p x = true
    · rw [List.find?_cons_of_pos _ hx] at h
      rw [List.cons_append, List.find?_cons_of_pos _ hx]
      exact h
    · rw [List.find?_cons_of_neg _ hx] at h
      rw [List.cons_append, List.find?_cons_of_neg _ hx]
      exact ih h

/-- The create-mode walk only appends module rows. -/
theorem resolveLoop_create_mono (now : Nat) :
    ∀ (segs : List Str) (pid : Option Nat) (cur : Option ModuleRow)
      (mods : List ModuleRow) (next : Nat),
      ∃ tail, (resolveLoop true now segs pid cur mods next).2.1 = mods ++ tail := by
  intro segs
  induction segs with
  | nil => exact fun pid cur mods next => ⟨[], by simp [resolveLoop]⟩
  | cons seg rest ih =>
    intro pid cur mods next
    simp only [resolveLoop]
    cases hfc : findChild mods seg pid with
    | some m => exact ih (some m.id) (some m) mods next
    | none =>
      obtain ⟨t, ht⟩ := ih (some next) (some ⟨next, seg, pid, now, now⟩)
        (mods ++ [⟨next, seg, pid, now, now⟩]) (next + 1)
      exact ⟨⟨next, seg, pid, now, now⟩ :: t, by rw [ht, List.append_assoc]; rfl⟩


/-- Main invariant of the create-mode walk: it preserves per-parent name
uniqueness and id freshness, and running the same walk again on its output
changes nothing (the second walk finds every segment). -/
theorem resolveLoop_create_stable (now now' : Nat) :
    ∀ (segs : List Str) (pid : Option Nat) (cur : Option ModuleRow)
      (mods mods' : List ModuleRow) (next next' : Nat) (res : Option ModuleRow),
      ModNamesUnique mods → (∀ m ∈ mods, m.id < next) →
      resolveLoop true now segs pid cur mods next = (res, mods', next') →
      ModNamesUnique mods' ∧ (∀ m ∈ mods', m.id < next') ∧
        resolveLoop true now' segs pid cur mods' next' = (res, mods', next') := by
  intro segs
  induction segs with
  | nil =>
    intro pid cur mods mods' next next' res hu hf hrun
    simp only [resolveLoop] at hrun
    cases hrun
    exact ⟨hu, hf, rfl⟩
  | cons seg rest ih =>
    intro pid cur mods mods' next next' res hu hf hrun
    simp only [resolveLoop] at hrun
    cases hfc : findChild mods seg pid with
    | some m =>
      rw [hfc] at hrun
      have hrun' : resolveLoop true now rest (some m.id) (some m) mods next =
          (res, mods', next') := hrun
      obtain ⟨hu', hf', hsecond⟩ :=
        ih (some m.id) (some m) mods mods' next next' res hu hf hrun'
      refine ⟨hu', hf', ?_⟩
      obtain ⟨tail, htail⟩ := resolveLoop_create_mono now rest (some m.id) (some m) mods next
      rw [hrun'] at htail
      have hfc' : findChild mods' seg pid = some m := by
        show mods'.find? _ = some m
        rw [show mods' = mods ++ tail from htail]
        exact find?_append_some tail hfc
      simp only [resolveLoop, hfc']
      exact hsecond
    | none =>
      rw [hfc] at hrun
      have hnotin : ∀ x ∈ mods, ¬(x.name = seg ∧ x.parentId = pid) := by
        have h0 : mods.find? (fun m => decide (m.name = seg ∧ m.parentId = pid)) = none := hfc
        rw [List.find?_eq_none] at h0
        intro x hx
        simpa using h0 x hx
      have hu₁ : ModNamesUnique (mods ++ [⟨next, seg, pid, now, now⟩]) := by
        unfold ModNamesUnique at hu ⊢
        rw [List.pairwise_append]
        refine ⟨hu, by simp, ?_⟩
        intro x hx y hy
        simp only [List.mem_singleton] at hy
        subst hy
        intro hcon
        exact hnotin x hx (by simpa using hcon)
      have hf₁ : ∀ m ∈ mods ++ [⟨next, seg, pid, now, now⟩], m.id < next + 1 := by
        intro m hm
        rcases List.mem_append.1 hm with h | h
        · exact Nat.lt_succ_of_lt (hf m h)
        · simp only [List.mem_singleton] at h
          subst h
          simp
      have hrun' : resolveLoop true now rest (some next)
          (some ⟨next, seg, pid, now, now⟩)
          (mods ++ [⟨next, seg, pid, now, now⟩]) (next + 1) =
          (res, mods', next') := hrun
      obtain ⟨hu', hf', hsecond⟩ := ih (some next) (some ⟨next, seg, pid, now, now⟩)
        (mods ++ [⟨next, seg, pid, now, now⟩]) mods' (next + 1) next' res hu₁ hf₁ hrun'
      refine ⟨hu', hf', ?_⟩
      obtain ⟨tail, htail⟩ := resolveLoop_create_mono now rest (some next)
        (some ⟨next, seg, pid, now, now⟩)
        (mods ++ [⟨next, seg, pid, now, now⟩]) (next + 1)
      rw [hrun'] at htail
      have hfc' : findChild mods' seg pid = some ⟨next, seg, pid, now, now⟩ := by
        show mods'.find? _ = _
        rw [show mods' = mods ++ [⟨next, seg, pid, now, now⟩] ++ tail from htail,
          List.append_assoc]
        rw [find?_append_of_none _ hfc]
        rw [List.cons_append, List.find?_cons_of_pos _ (by simp)]
      simp only [resolveLoop, hfc']
      exact hsecond

/-- **C8.** `create_module_path` is idempotent: a second call on the same
path returns exactly the same result (same leaf module, identical store), so
only one module chain is ever created; and per-parent name uniqueness is
preserved, so no two sibling modules ever share a name.  Hypotheses are the
schema invariants of the module table. -/
theorem claim_C8_create_idempotent (db : DB) (p : Str) (now₁ now₂ : Nat)
    (hu : ModNamesUnique db.modules) (hf : ModIdsFresh db) :
    createModulePath (createModulePath db p now₁).2 p now₂ =
        createModulePath db p now₁ ∧
      ModNamesUnique (createModulePath db p now₁).2.modules := by
  by_cases hp : p = []
  · subst hp
    exact ⟨rfl, hu⟩
  · rcases hres : resolveLoop true now₁ (splitOnSlash p) none none db.modules
        db.nextModuleId with ⟨res, mods', next'⟩
    obtain ⟨hu', hf', hsec⟩ := resolveLoop_create_stable now₁ now₂ (splitOnSlash p)
      none none db.modules mods' db.nextModuleId next' res hu hf hres
    have h1 : createModulePath db p now₁ =
        (res, { db with modules := mods', nextModuleId := next' }) := by
      simp only [createModulePath, resolveModulePath]
      rw [if_neg hp, hres]
    have h2 : createModulePath
        { db with modules := mods', nextModuleId := next' } p now₂ =
        (res, { db with modules := mods', nextModuleId := next' }) := by
      simp only [createModulePath, resolveModulePath]
      rw [if_neg hp]
      rw [hsec]
    rw [h1]
    exact ⟨h2, hu'⟩

/-- Witness for C8 at the concrete path `p/q/r` on the empty store. -/
theorem claim_C8_witness :
    ModNamesUnique DB.empty.modules ∧ ModIdsFresh DB.empty ∧
    (createModulePath (createModulePath DB.empty ("p/q/r".toList) 1).2
        ("p/q/r".toList) 2 = createModulePath DB.empty ("p/q/r".toList) 1 ∧
      ModNamesUnique (createModulePath DB.empty ("p/q/r".toList) 1).2.modules) :=
  ⟨by decide, by decide,
    claim_C8_create_idempotent DB.empty ("p/q/r".toList) 1 2 (by decide) (by decide)⟩

/-! ## C9: list_snippets with a keyword -/

theorem strLt_asymm : ∀ a b : Str, strLt a b = true → strLt b a = false := by
  intro a
  induction a with
  | nil =>
    intro b h
    cases b with
    | nil => simp [strLt] at h
    | cons y ys => simp [strLt]
  | cons x xs ih =>
    intro b h
    cases b with
    | nil => simp [strLt] at h
    | cons y ys =>
      simp only [strLt] at h ⊢
      by_cases hxy : x < y
      · rw [if_neg (lt_asymm hxy), if_pos hxy]
      · rw [if_neg hxy] at h
        by_cases hyx : y < x
        · rw [if_pos hyx] at h
          simp at h
        · rw [if_neg hyx] at h
          rw [if_neg hyx, if_neg hxy]
          exact ih ys h

theorem strLt_negtrans :
    ∀ a b c : Str, strLt a b = false → strLt b c = false → strLt a c = false := by
  intro a
  induction a with
  | nil =>
    intro b c hab hbc
    cases c with
    | nil => simp [strLt]
    | cons z zs =>
      cases b with
      | nil => simp [strLt] at hbc
      | cons y ys => simp [strLt] at hab
  | cons x xs ih =>
    intro b c hab hbc
    cases c with
    | nil => simp [strLt]
    | cons z zs =>
      cases b with
      | nil => simp [strLt] at hbc
      | cons y ys =>
        simp only [strLt] at hab hbc ⊢
        by_cases hxy : x < y
        · rw [if_pos hxy] at hab
          simp at hab
        · rw [if_neg hxy] at hab
          by_cases hyz : y < z
          · rw [if_pos hyz] at hbc
            simp at hbc
          · rw [if_neg hyz] at hbc
            have hxz : ¬ x < z := fun h => hxy (lt_of_lt_of_le h (le_of_not_lt hyz))
            rw [if_neg hxz]
            by_cases hzx : z < x
            · rw [if_pos hzx]
            · rw [if_neg hzx]
              have hxz' : x = z := le_antisymm (le_of_not_lt hzx) (le_of_not_lt hxz)
              subst hxz'
              have hyx' : y = x := le_antisymm (le_of_not_lt hxy) (le_of_not_lt hyz)
              subst hyx'
              rw [if_neg hzx] at hab hbc
              exact ih ys zs hab hbc

theorem insertByName_perm (s : SnippetRow) (l : List SnippetRow) :
    (insertByName s l).Perm (s :: l) := by
  induction l with
  | nil => exact List.Perm.refl _
  | cons t ts ih =>
    unfold insertByName
    split
    · exact (ih.cons t).trans (List.Perm.swap s t ts)
    · exact List.Perm.refl _

theorem sortByName_perm (l : List SnippetRow) : (sortByName l).Perm l := by
  induction l with
  | nil => exact List.Perm.refl _
  | cons s rest ih =>
    unfold sortByName
    exact (insertByName_perm s (sortByName rest)).trans (ih.cons s)

theorem insertByName_sorted (s : SnippetRow) (l : List SnippetRow)
    (h : List.Pairwise (fun a b => strLt b.name a.name = false) l) :
    List.Pairwise (fun a b => strLt b.name a.name = false) (insertByName s l) := by
  induction l with
  | nil => simp [insertByName]
  | cons t ts ih =>
    rw [List.pairwise_cons] at h
    obtain ⟨ht, hts⟩ := h
    unfold insertByName
    split
    · rename_i hlt
      rw [List.pairwise_cons]
      refine ⟨?_, ih hts⟩
      intro x hx
      rcases List.mem_cons.1 ((insertByName_perm s ts).mem_iff.1 hx) with hx' | hx'
      · subst hx'
        exact strLt_asymm t.name x.name hlt
      · exact ht x hx'
    · rename_i hnlt
      rw [Bool.not_eq_true] at hnlt
      rw [List.pairwise_cons]
      refine ⟨?_, List.pairwise_cons.2 ⟨ht, hts⟩⟩
      intro x hx
      rcases List.mem_cons.1 hx with hx' | hx'
      · subst hx'
        exact hnlt
      · exact strLt_negtrans x.name t.name s.name (ht x hx') hnlt

theorem sortByName_sorted (l : List SnippetRow) :
    List.Pairwise (fun a b => strLt b.name a.name = false) (sortByName l) := by
  induction l with
  | nil => simp [sortByName]
  | cons s rest ih => exact insertByName_sorted s (sortByName rest) ih

/-- Store with snippets `b/a` and `a/z`, whose names sort as `a < z` while
their full paths sort the other way. -/
def listOrderDb : DB :=
  (saveSnippet idCodec (saveSnippet idCodec DB.empty ("b/a".toList) ['1'] 1).2
    ("a/z".toList) ['2'] 2).2

/-- **C9 (counterexample).** `list_snippets("a")` on `listOrderDb` returns
`["b/a", "a/z"]`, which is not in alphabetical order of full path: the SQL
orders by the bare snippet `name` column, not by the reconstructed path. -/
theorem claim_C9_counterexample :
    listSnippets listOrderDb (some ['a']) = ["b/a".toList, "a/z".toList] ∧
      ¬ List.Pairwise (fun x y => strLt y x = false)
        (listSnippets listOrderDb (some ['a'])) := by
  decide

/-- **C9 (amended).** For a non-empty keyword `k`, `list_snippets(k)` returns
exactly the full-path strings of those snippets whose full path contains `k`
as a case-insensitive substring — but ordered by the snippets' bare names
(the `ORDER BY name` of the SQL, ties in rowid order), not alphabetically by
full path. -/
theorem claim_C9_amended (db : DB) (k : Str) (hk : k ≠ []) :
    (∀ q, q ∈ listSnippets db (some k) ↔
      ((∃ s ∈ db.snippets, snippetFullPath db.modules s = q) ∧
        strInStr (toLowerStr k) (toLowerStr q) = true)) ∧
    listSnippets db (some k) =
      ((sortByName db.snippets).filter
        (fun s => strInStr (toLowerStr k)
          (toLowerStr (snippetFullPath db.modules s)))).map
        (snippetFullPath db.modules) ∧
    List.Pairwise (fun a b => strLt b.name a.name = false) (sortByName db.snippets) ∧
    (sortByName db.snippets).Perm db.snippets := by
  have heq : listSnippets db (some k) =
      ((sortByName db.snippets).map (snippetFullPath db.modules)).filter
        (fun q => strInStr (toLowerStr k) (toLowerStr q)) := by
    simp only [listSnippets]
    rw [if_pos hk]
  refine ⟨?_, ?_, sortByName_sorted _, sortByName_perm _⟩
  · intro q
    rw [heq, List.mem_filter]
    constructor
    · rintro ⟨hmem, hq⟩
      obtain ⟨s, hs, rfl⟩ := List.mem_map.1 hmem
      exact ⟨⟨s, (sortByName_perm db.snippets).mem_iff.1 hs, rfl⟩, hq⟩
    · rintro ⟨⟨s, hs, rfl⟩, hq⟩
      exact ⟨List.mem_map.2 ⟨s, (sortByName_perm db.snippets).mem_iff.2 hs, rfl⟩, hq⟩
  · rw [heq, List.filter_map]
    rfl

/-- Store with snippets `git/commit`, `git/push` and `deploy` (the spec's
concrete keyword scenario). -/
def keywordDb : DB :=
  (saveSnippet idCodec (saveSnippet idCodec (saveSnippet idCodec DB.empty
    ("git/commit".toList) ['1'] 1).2 ("git/push".toList) ['2'] 2).2
    ("deploy".toList) ['3'] 3).2

/-- Witness for the amended C9 on the spec's concrete scenario; the keyword
`git` selects exactly `["git/commit", "git/push"]`. -/
theorem claim_C9_witness :
    ("git".toList ≠ ([] : Str)) ∧
      listSnippets keywordDb (some ("git".toList)) =
        ((sortByName keywordDb.snippets).filter
          (fun s => strInStr (toLowerStr ("git".toList))
            (toLowerStr (snippetFullPath keywordDb.modules s)))).map
          (snippetFullPath keywordDb.modules) ∧
      listSnippets keywordDb (some ("git".toList)) =
        ["git/commit".toList, "git/push".toList] :=
  ⟨by decide, (claim_C9_amended keywordDb ("git".toList) (by decide)).2.1,
    by decide⟩

/-! ## C6: delete_module_tree -/

theorem modNamesUnique_forall {mods : List ModuleRow} (h : ModNamesUnique mods) :
    ∀ x ∈ mods, ∀ y ∈ mods, x ≠ y →
      ¬(x.name = y.name ∧ x.parentId = y.parentId) := by
  have hsymm : Symmetric
      (fun a b : ModuleRow => ¬(a.name = b.name ∧ a.parentId = b.parentId)) := by
    intro a b hab hcon
    exact hab ⟨hcon.1.symm, hcon.2.symm⟩
  intro x hx y hy hxy
  exact List.Pairwise.forall hsymm h hx hy hxy

/-- `x` is the module `root` itself, or a transitive descendant of it
through the `parent_id` back-references. -/
inductive Desc (mods : List ModuleRow) (root : Nat) : Nat → Prop
  | refl : Desc mods root root
  | step {p : Nat} {m : ModuleRow} : Desc mods root p → m ∈ mods →
      m.parentId = some p → Desc mods root m.id

theorem subset_descStep (mods : List ModuleRow) (ids : List Nat) :
    ids ⊆ descStep mods ids := by
  intro x hx
  exact List.mem_append.2 (Or.inl hx)

theorem subset_descIter (mods : List ModuleRow) :
    ∀ (k : Nat) (ids : List Nat), ids ⊆ descIter mods k ids := by
  intro k
  induction k with
  | zero => exact fun ids => List.Subset.refl ids
  | succ k ih =>
    intro ids
    exact (subset_descStep mods ids).trans (ih (descStep mods ids))

theorem descStep_sound {mods : List ModuleRow} {root : Nat} {ids : List Nat}
    (h : ∀ i ∈ ids, Desc mods root i) :
    ∀ j ∈ descStep mods ids, Desc mods root j := by
  intro j hj
  rcases List.mem_append.1 hj with hj' | hj'
  · exact h j hj'
  · obtain ⟨m, hm, rfl⟩ := List.mem_map.1 hj'
    have hmem := List.mem_of_mem_filter hm
    have hpred := List.of_mem_filter hm
    simp only [decide_eq_true_eq] at hpred
    obtain ⟨p, hp, hpid⟩ := List.mem_map.1 hpred.2
    exact Desc.step (h p hp) hmem hpid.symm

theorem descIter_sound {mods : List ModuleRow} {root : Nat} :
    ∀ (k : Nat) (ids : List Nat), (∀ i ∈ ids, Desc mods root i) →
      ∀ j ∈ descIter mods k ids, Desc mods root j := by
  intro k
  induction k with
  | zero => exact fun ids h => h
  | succ k ih =>
    intro ids h
    exact ih (descStep mods ids) (descStep_sound h)

theorem closed_of_descStep_eq {mods : List ModuleRow} {ids : List Nat}
    (h : descStep mods ids = ids) :
    ∀ m ∈ mods, m.parentId ∈ ids.map some → m.id ∈ ids := by
  intro m hm hp
  by_contra hid
  have hx : ids ++ (mods.filter (fun m =>
      decide (m.id ∉ ids ∧ m.parentId ∈ ids.map some))).map (fun m => m.id) =
      ids ++ [] := by
    rw [List.append_nil]
    exact h
  have hemp := List.append_cancel_left hx
  have : m ∈ mods.filter (fun m =>
      decide (m.id ∉ ids ∧ m.parentId ∈ ids.map some)) :=
    List.mem_filter.2 ⟨hm, by simp [hid, hp]⟩
  rw [List.eq_nil_iff_forall_not_mem] at hemp
  exact hemp m.id (List.mem_map.2 ⟨m, this, rfl⟩)

theorem descIter_of_closed {mods : List ModuleRow} {ids : List Nat}
    (h : descStep mods ids = ids) :
    ∀ k, descIter mods k ids = ids := by
  intro k
  induction k with
  | zero => rfl
  | succ k ih =>
    show descIter mods k (descStep mods ids) = ids
    rw [h]
    exact ih

theorem descIter_saturates (mods : List ModuleRow) (hmod : ModIdsNodup mods)
    (root : Nat) :
    ∀ (k : Nat) (ids : List Nat), ids.Nodup →
      ids ⊆ root :: mods.map (fun m => m.id) →
      mods.length + 2 ≤ ids.length + k →
      descStep mods (descIter mods k ids) = descIter mods k ids := by
  intro k
  induction k with
  | zero =>
    intro ids hnd hsub hlen
    have hle : ids.length ≤ (root :: mods.map (fun m => m.id)).length :=
      (List.subperm_of_subset hnd hsub).length_le
    simp only [List.length_cons, List.length_map] at hle
    omega
  | succ k ih =>
    intro ids hnd hsub hlen
    by_cases hstep : descStep mods ids = ids
    · show descStep mods (descIter mods k (descStep mods ids)) =
        descIter mods k (descStep mods ids)
      rw [hstep, descIter_of_closed hstep]
      exact hstep
    · have hnewsub : (mods.filter (fun m =>
          decide (m.id ∉ ids ∧ m.parentId ∈ ids.map some))).map (fun m => m.id) ≠
          [] := by
        intro hemp
        exact hstep (by unfold descStep; rw [hemp, List.append_nil])
      have hnd' : (descStep mods ids).Nodup := by
        unfold descStep
        rw [List.nodup_append]
        refine ⟨hnd, ?_, ?_⟩
        · have hmod' : (mods.map (fun m => m.id)).Nodup := hmod
          exact ((List.filter_sublist mods).map (fun m => m.id)).nodup hmod'
        · intro x hx hx'
          obtain ⟨m, hm, rfl⟩ := List.mem_map.1 hx'
          have hpred := List.of_mem_filter hm
          simp only [decide_eq_true_eq] at hpred
          exact hpred.1 hx
      have hsub' : descStep mods ids ⊆ root :: mods.map (fun m => m.id) := by
        intro x hx
        rcases List.mem_append.1 hx with hx' | hx'
        · exact hsub hx'
        · obtain ⟨m, hm, rfl⟩ := List.mem_map.1 hx'
          exact List.mem_cons_of_mem root
            (List.mem_map.2 ⟨m, List.mem_of_mem_filter hm, rfl⟩)
      have hlen' : ids.length + 1 ≤ (descStep mods ids).length := by
        unfold descStep
        rw [List.length_append]
        have : 1 ≤ ((mods.filter (fun m =>
            decide (m.id ∉ ids ∧ m.parentId ∈ ids.map some))).map
            (fun m => m.id)).length := by
          cases hl : (mods.filter (fun m =>
              decide (m.id ∉ ids ∧ m.parentId ∈ ids.map some))).map (fun m => m.id)
          · exact absurd hl hnewsub
          · simp
        omega
      exact ih (descStep mods ids) hnd' hsub' (by omega)

theorem subtreeIds_closed {mods : List ModuleRow} (hmod : ModIdsNodup mods)
    (root : Nat) :
    ∀ m ∈ mods, m.parentId ∈ (subtreeIds mods root).map some →
      m.id ∈ subtreeIds mods root :=
  closed_of_descStep_eq
    (descIter_saturates mods hmod root (mods.length + 1) [root]
      (by simp) (by intro x hx; simp at hx; simp [hx]) (by simp; omega))

theorem root_mem_subtreeIds (mods : List ModuleRow) (root : Nat) :
    root ∈ subtreeIds mods root :=
  subset_descIter mods (mods.length + 1) [root] (by simp)

/-- Soundness: every collected id is the root or a transitive descendant. -/
theorem desc_of_mem_subtreeIds {mods : List ModuleRow} {root mid : Nat}
    (h : mid ∈ subtreeIds mods root) : Desc mods root mid :=
  descIter_sound (mods.length + 1) [root]
    (by intro i hi; simp at hi; subst hi; exact Desc.refl) mid h

/-- Completeness: every transitive descendant id is collected. -/
theorem mem_subtreeIds_of_desc {mods : List ModuleRow} (hmod : ModIdsNodup mods)
    {root mid : Nat} (h : Desc mods root mid) : mid ∈ subtreeIds mods root := by
  induction h with
  | refl => exact root_mem_subtreeIds mods root
  | step hdp hm hpid ih =>
    exact subtreeIds_closed hmod root _ hm (by
      rw [hpid]
      exact List.mem_map.2 ⟨_, ih, rfl⟩)

theorem subtreeIds_ne_nil (mods : List ModuleRow) (root : Nat) :
    subtreeIds mods root ≠ [] :=
  List.ne_nil_of_mem (root_mem_subtreeIds mods root)

theorem deleteModuleTree_success (db : DB) (path : Str) (module : ModuleRow)
    (h : getModuleByPath db path = some module) :
    deleteModuleTree db path =
      (true,
        { db with
          snippets := db.snippets.filter (fun s =>
            decide (s.moduleId ∉ (subtreeIds db.modules module.id).map some)),
          modules := db.modules.filter (fun m =>
            decide (m.id ∉ subtreeIds db.modules module.id)) }) := by
  unfold deleteModuleTree
  rw [h]
  exact if_neg (subtreeIds_ne_nil db.modules module.id)

/-- Chain-break: if a non-empty lookup walk in `mods` ends at a module whose
id is in `S`, the same walk in `mods` with all `S`-modules deleted fails
(provided per-parent names are unique, so the deleted match has no double). -/
theorem lookupSegs_filter_out (mods : List ModuleRow) (S : List Nat)
    (hnames : ModNamesUnique mods) :
    ∀ (segs : List Str) (pid : Option Nat) (cur cur' : Option ModuleRow)
      (mk : ModuleRow),
      lookupSegs mods segs pid cur = some mk → mk.id ∈ S → segs ≠ [] →
      lookupSegs (mods.filter (fun m => decide (m.id ∉ S))) segs pid cur' =
        none := by
  intro segs
  induction segs with
  | nil =>
    intro pid cur cur' mk _ _ hne
    exact absurd rfl hne
  | cons seg rest ih =>
    intro pid cur cur' mk hres hS _
    simp only [lookupSegs] at hres ⊢
    cases hfc : findChild mods seg pid with
    | none =>
      rw [hfc] at hres
      cases hres
    | some f =>
      rw [hfc] at hres
      have hfmem : f ∈ mods := List.mem_of_find?_eq_some hfc
      have hfp := List.find?_some hfc
      simp only [decide_eq_true_eq] at hfp
      by_cases hfS : f.id ∈ S
      · have huniq : ∀ x ∈ mods,
            (decide (x.name = seg ∧ x.parentId = pid)) = true → x = f := by
          intro x hx hpx
          simp only [decide_eq_true_eq] at hpx
          by_contra hne
          exact modNamesUnique_forall hnames x hx f hfmem hne
            ⟨hpx.1.trans hfp.1.symm, hpx.2.trans hfp.2.symm⟩
        have hdel : findChild (mods.filter (fun m => decide (m.id ∉ S))) seg pid =
            none :=
          find?_filter_of_unique_drop _ _ _ f hfc (by simp [hfS]) huniq
        rw [hdel]
      · have hkeep : findChild (mods.filter (fun m => decide (m.id ∉ S))) seg pid =
            some f :=
          find?_filter_of_find? _ _ _ f hfc (by simp [hfS])
        rw [hkeep]
        cases rest with
        | nil =>
          have hres' : some f = some mk := hres
          cases hres'
          exact absurd hS hfS
        | cons r rs =>
          exact ih (some f.id) (some f) (some f) mk hres hS (by simp)

/-- **C6 (amended).** `delete_module_tree` on an existing module deletes
exactly the modules of the subtree and exactly the snippets whose parent
module lies in the subtree, leaving every other row unchanged.  A subsequent
`get_snippet` on a path that previously named a deleted snippet no longer
resolves the module path and therefore falls back to a root-level lookup of
the path's leaf name: it returns that root-level snippet if one exists, and
not-found otherwise. -/
theorem claim_C6_delete_module_tree (κ : Codec) (db : DB) (path : Str)
    (module : ModuleRow) (hmodule : getModuleByPath db path = some module)
    (hids : ModIdsNodup db.modules) (hnames : ModNamesUnique db.modules) :
    (deleteModuleTree db path).1 = true ∧
    (∀ m ∈ db.modules,
      (m ∈ (deleteModuleTree db path).2.modules ↔
        ¬ Desc db.modules module.id m.id)) ∧
    (∀ m ∈ (deleteModuleTree db path).2.modules, m ∈ db.modules) ∧
    (∀ s ∈ db.snippets,
      (s ∈ (deleteModuleTree db path).2.snippets ↔
        ¬ ∃ mid, s.moduleId = some mid ∧ Desc db.modules module.id mid)) ∧
    (∀ s ∈ (deleteModuleTree db path).2.snippets, s ∈ db.snippets) ∧
    (∀ p row mid, getSnippetRowByPath db p = some row →
      row.moduleId = some mid → Desc db.modules module.id mid →
      getSnippet κ (deleteModuleTree db path).2 p =
        (findSnip (deleteModuleTree db path).2.snippets (splitPath p).2 none).map
          (rowToSnip κ) ∧
      (findSnip (deleteModuleTree db path).2.snippets (splitPath p).2 none = none →
        getSnippet κ (deleteModuleTree db path).2 p = none)) := by
  have hsucc := deleteModuleTree_success db path module hmodule
  have h1 : (deleteModuleTree db path).1 = true := by rw [hsucc]
  have hmods : (deleteModuleTree db path).2.modules =
      db.modules.filter (fun m =>
        decide (m.id ∉ subtreeIds db.modules module.id)) := by
    rw [hsucc]
  have hsnips : (deleteModuleTree db path).2.snippets =
      db.snippets.filter (fun s =>
        decide (s.moduleId ∉ (subtreeIds db.modules module.id).map some)) := by
    rw [hsucc]
  refine ⟨h1, ?_, ?_, ?_, ?_, ?_⟩
  · intro m hm
    have hiff : m.id ∈ subtreeIds db.modules module.id ↔
        Desc db.modules module.id m.id :=
      ⟨desc_of_mem_subtreeIds, mem_subtreeIds_of_desc hids⟩
    rw [hmods]
    constructor
    · intro hmem hdesc
      have hpred := List.of_mem_filter hmem
      simp only [decide_eq_true_eq] at hpred
      exact hpred (hiff.2 hdesc)
    · intro hndesc
      exact List.mem_filter.2 ⟨hm, by
        simp only [decide_eq_true_eq]
        exact fun hin => hndesc (hiff.1 hin)⟩
  · intro m hm
    rw [hmods] at hm
    exact List.mem_of_mem_filter hm
  · intro s hs
    have hiff : s.moduleId ∈ (subtreeIds db.modules module.id).map some ↔
        ∃ mid, s.moduleId = some mid ∧ Desc db.modules module.id mid := by
      constructor
      · intro h
        obtain ⟨mid, hmid, heq⟩ := List.mem_map.1 h
        exact ⟨mid, heq.symm, desc_of_mem_subtreeIds hmid⟩
      · rintro ⟨mid, heq, hdesc⟩
        rw [heq]
        exact List.mem_map.2 ⟨mid, mem_subtreeIds_of_desc hids hdesc, rfl⟩
    rw [hsnips]
    constructor
    · intro hmem hex
      have hpred := List.of_mem_filter hmem
      simp only [decide_eq_true_eq] at hpred
      exact hpred (hiff.2 hex)
    · intro hnex
      exact List.mem_filter.2 ⟨hs, by
        simp only [decide_eq_true_eq]
        exact fun hin => hnex (hiff.1 hin)⟩
  · intro s hs
    rw [hsnips] at hs
    exact List.mem_of_mem_filter hs
  · intro p row mid hrow hmid hdesc
    rw [getSnippetRowByPath_eq] at hrow
    obtain ⟨hmem, hname, hkey⟩ := findSnip_some hrow
    have hkey2 : ((resolveModulePath db (splitPath p).1 false 0).1).map
        (fun m => m.id) = some mid := by
      show snipLookupKey db p = some mid
      rw [← hkey, hmid]
    obtain ⟨mk, hmk, hmkid⟩ :
        ∃ mk, (resolveModulePath db (splitPath p).1 false 0).1 = some mk ∧
          mk.id = mid := by
      cases hr : (resolveModulePath db (splitPath p).1 false 0).1 with
      | none => rw [hr] at hkey2; simp at hkey2
      | some mk =>
        rw [hr] at hkey2
        simp only [Option.map_some', Option.some.injEq] at hkey2
        exact ⟨mk, rfl, hkey2⟩
    rcases hmp : (splitPath p).1 with _ | mp
    · rw [hmp] at hmk
      cases (show (none : Option ModuleRow) = some mk from hmk)
    · rw [hmp] at hmk
      by_cases hmpe : mp = []
      · subst hmpe
        cases (show (none : Option ModuleRow) = some mk from hmk)
      · have hlook : lookupSegs db.modules (splitOnSlash mp) none none = some mk := by
          rw [resolveModulePath_lookup] at hmk
          simpa [hmpe] using hmk
        have hS : mk.id ∈ subtreeIds db.modules module.id := by
          rw [hmkid]
          exact mem_subtreeIds_of_desc hids hdesc
        have hbreak := lookupSegs_filter_out db.modules
          (subtreeIds db.modules module.id) hnames (splitOnSlash mp) none none
          none mk hlook hS (splitOnSlash_ne_nil mp)
        have hkey' : snipLookupKey (deleteModuleTree db path).2 p = none := by
          unfold snipLookupKey
          rw [resolveModulePath_lookup, hmp]
          dsimp only
          rw [if_neg hmpe, hmods, hbreak]
          rfl
        constructor
        · rw [getSnippet_eq_map, getSnippetRowByPath_eq, hkey']
        · intro hnone
          rw [getSnippet_eq_map, getSnippetRowByPath_eq, hkey', hnone]
          rfl

/-- Store with a root snippet `c` ("rootc") and a nested snippet `a/b/c`
("nested"): the scenario exposing the root-fallback after a subtree delete. -/
def deleteFallbackDb : DB :=
  (saveSnippet idCodec (saveSnippet idCodec DB.empty ['c'] ("rootc".toList) 1).2
    ("a/b/c".toList) ("nested".toList) 2).2

/-- **C6 (counterexample).** After `delete_module_tree("a")` wipes the subtree
holding `a/b/c`, `get_snippet("a/b/c")` is NOT a not-found: the unresolvable
module path makes `_get_snippet_row_by_path` fall back to a root-level lookup
of the leaf name `c`, which returns the surviving root snippet `"rootc"`. -/
theorem claim_C6_counterexample :
    (getSnippet idCodec deleteFallbackDb ("a/b/c".toList)).map
        (fun s => s.content) = some ("nested".toList) ∧
      (deleteModuleTree deleteFallbackDb ['a']).1 = true ∧
      (getSnippet idCodec (deleteModuleTree deleteFallbackDb ['a']).2
          ("a/b/c".toList)).map (fun s => s.content) = some ("rootc".toList) := by
  decide

/-- Store with only the nested snippet `a/b/c` (no root-level `c`). -/
def deleteNestedDb : DB :=
  (saveSnippet idCodec DB.empty ("a/b/c".toList) ("nested".toList) 1).2

/-- Witness for the amended C6: deleting `a` on `deleteNestedDb` empties both
tables, and `get_snippet("a/b/c")` afterwards is none (the root fallback finds
no snippet named `c`). -/
theorem claim_C6_witness :
    getModuleByPath deleteNestedDb ['a'] = some ⟨1, ['a'], none, 1, 1⟩ ∧
    ModIdsNodup deleteNestedDb.modules ∧
    ModNamesUnique deleteNestedDb.modules ∧
    (deleteModuleTree deleteNestedDb ['a']).1 = true ∧
    (deleteModuleTree deleteNestedDb ['a']).2.modules = [] ∧
    (deleteModuleTree deleteNestedDb ['a']).2.snippets = [] ∧
    getSnippet idCodec (deleteModuleTree deleteNestedDb ['a']).2
      ("a/b/c".toList) = none := by
  have hm : getModuleByPath deleteNestedDb ['a'] = some ⟨1, ['a'], none, 1, 1⟩ := by
    decide
  have hids : ModIdsNodup deleteNestedDb.modules := by decide
  have hnames : ModNamesUnique deleteNestedDb.modules := by decide
  have h := claim_C6_delete_module_tree idCodec deleteNestedDb ['a']
    ⟨1, ['a'], none, 1, 1⟩ hm hids hnames
  have hdesc : Desc deleteNestedDb.modules 1 2 :=
    Desc.step Desc.refl
      (show (⟨2, ['b'], some 1, 1, 1⟩ : ModuleRow) ∈ deleteNestedDb.modules from
        by decide) rfl
  have h6 := h.2.2.2.2.2 ("a/b/c".toList)
    ⟨1, ['c'], some 2, ("nested".toList), false, 1, 1⟩ 2 (by decide) rfl hdesc
  exact ⟨hm, hids, hnames, h.1, by decide, by decide, h6.2 (by decide)⟩

/-! ## C7: rename_module -/

/-- Store with one module `a` and one snippet `a/s`. -/
def cycleDb : DB :=
  (saveSnippet idCodec DB.empty ("a/s".toList) ("v".toList) 1).2

/-- Store with modules `a`, `a/b` and one snippet `a/b/s`. -/
def nestedDb : DB :=
  (saveSnippet idCodec DB.empty ("a/b/s".toList) ("v".toList) 1).2

/-- **C7 (counterexample).**  Three successful `rename_module` calls whose
outcome contradicts the claim's reachability clause:
(1) `rename_module("a", "a/c")` succeeds but makes the module its own parent
(the new parent path `a` resolves to the module being renamed), so the
snippet formerly at `a/s` is reachable neither as `a/c/s` nor anywhere else;
(2) `rename_module("a/b", "b2")` succeeds but a bare new name keeps the old
parent, so the snippet moves to `a/b2/s`, not to `b2/s`;
(3) the no-op `rename_module("a", "a")` succeeds, and `old/rest` is still
found afterwards, contradicting "old/rest is not-found". -/
theorem claim_C7_counterexample :
    ((renameModule cycleDb ("a".toList) ("a/c".toList) 2).1 = true ∧
      getSnippet idCodec (renameModule cycleDb ("a".toList) ("a/c".toList) 2).2
        ("a/c/s".toList) = none) ∧
    ((renameModule nestedDb ("a/b".toList) ("b2".toList) 2).1 = true ∧
      getSnippet idCodec (renameModule nestedDb ("a/b".toList) ("b2".toList) 2).2
        ("b2/s".toList) = none ∧
      (getSnippet idCodec (renameModule nestedDb ("a/b".toList) ("b2".toList) 2).2
        ("a/b2/s".toList)).map (fun t => t.content) = some ("v".toList)) ∧
    ((renameModule cycleDb ("a".toList) ("a".toList) 2).1 = true ∧
      (getSnippet idCodec (renameModule cycleDb ("a".toList) ("a".toList) 2).2
        ("a/s".toList)).map (fun t => t.content) = some ("v".toList)) := by
  decide

theorem find?_map_invariant {α : Type} (l : List α) (p : α → Bool) (f : α → α)
    (h : ∀ x ∈ l, p (f x) = p x) :
    (l.map f).find? p = (l.find? p).map f := by
  induction l with
  | nil => rfl
  | cons y t ih =>
    rw [List.map_cons]
    by_cases hy : p y = true
    · rw [List.find?_cons_of_pos _ (by rw [h y (by simp)]; exact hy),
        List.find?_cons_of_pos _ hy]
      rfl
    · rw [List.find?_cons_of_neg _ (by rw [h y (by simp)]; exact hy),
        List.find?_cons_of_neg _ hy]
      exact ih (fun x hx => h x (List.mem_cons_of_mem y hx))

theorem modRow_eq_of_id_eq {l : List ModuleRow} (hids : ModIdsNodup l)
    {x y : ModuleRow} (hx : x ∈ l) (hy : y ∈ l) (h : x.id = y.id) : x = y := by
  have hids' : (l.map (fun m => m.id)).Nodup := hids
  exact List.inj_on_of_nodup_map hids' hx hy h

/-- A single-row module update that keeps every row's `id` and makes the
child-matching predicate invariant on rows with a parent cannot change any
lookup step that starts below the root: the walk in the updated table mirrors
the walk in the original one. -/
theorem lookupSegs_map_below (l : List ModuleRow) (f : ModuleRow → ModuleRow)
    (hid : ∀ m, (f m).id = m.id)
    (hmatch : ∀ x ∈ l, ∀ (seg : Str) (pid : Nat),
      decide ((f x).name = seg ∧ (f x).parentId = some pid) =
        decide (x.name = seg ∧ x.parentId = some pid)) :
    ∀ (segs : List Str) (pid : Nat) (cur : Option ModuleRow),
      lookupSegs (l.map f) segs (some pid) (cur.map f) =
        (lookupSegs l segs (some pid) cur).map f := by
  intro segs
  induction segs with
  | nil => intro pid cur; rfl
  | cons seg rest ih =>
    intro pid cur
    simp only [lookupSegs]
    have hfc : findChild (l.map f) seg (some pid) =
        (findChild l seg (some pid)).map f := by
      unfold findChild
      exact find?_map_invariant l _ f (fun x hx => hmatch x hx seg pid)
    rw [hfc]
    cases hr : findChild l seg (some pid) with
    | none => rfl
    | some m =>
      simp only [Option.map_some']
      have hgoal := ih m.id (some m)
      rw [show Option.map f (some m) = some (f m) from rfl] at hgoal
      rw [hid m]
      exact hgoal

theorem splitPath_append_single {s rest : Str} (hs : '/' ∉ s) (hsne : s ≠ [])
    (hrest : ∀ part ∈ splitOnSlash rest, part ≠ []) :
    splitPath (s ++ '/' :: rest) =
      (some (joinSlash (s :: (splitOnSlash rest).dropLast)),
       (splitOnSlash rest).getLastD []) := by
  have hmem : '/' ∈ s ++ '/' :: rest :=
    List.mem_append.2 (Or.inr (List.mem_cons_self _ _))
  have hparts : splitOnSlash (s ++ '/' :: rest) = s :: splitOnSlash rest := by
    rw [splitOnSlash_append, splitOnSlash_eq_single hs]
    rfl
  have hrne : splitOnSlash rest ≠ [] := splitOnSlash_ne_nil rest
  have hjne : joinSlash (s :: (splitOnSlash rest).dropLast) ≠ [] := by
    refine joinSlash_ne_nil (by simp) ?_
    intro p hp
    rcases List.mem_cons.1 hp with h | h
    · rw [h]; exact hsne
    · exact hrest p ((List.dropLast_sublist _).subset h)
  unfold splitPath
  rw [if_neg (not_not_intro hmem)]
  rw [hparts]
  have hlen : (s :: splitOnSlash rest).length > 1 := by
    cases hsp : splitOnSlash rest with
    | nil => exact absurd hsp hrne
    | cons a t => simp
  have hdl : (s :: splitOnSlash rest).dropLast = s :: (splitOnSlash rest).dropLast := by
    cases hsp : splitOnSlash rest with
    | nil => exact absurd hsp hrne
    | cons a t => rfl
  have hlast : (s :: splitOnSlash rest).getLastD [] = (splitOnSlash rest).getLastD [] := by
    cases hsp : splitOnSlash rest with
    | nil => exact absurd hsp hrne
    | cons a t => rfl
  dsimp only
  rw [if_pos hlen, hdl]
  dsimp only
  rw [if_neg hjne, hlast]

theorem snipLookupKey_append {db : DB} {s rest : Str} (hs : '/' ∉ s)
    (hsne : s ≠ []) (hrest : ∀ part ∈ splitOnSlash rest, part ≠ []) :
    snipLookupKey db (s ++ '/' :: rest) =
      (lookupSegs db.modules (s :: (splitOnSlash rest).dropLast) none none).map
        (fun m => m.id) := by
  have hjne : joinSlash (s :: (splitOnSlash rest).dropLast) ≠ [] := by
    refine joinSlash_ne_nil (by simp) ?_
    intro p hp
    rcases List.mem_cons.1 hp with h | h
    · rw [h]; exact hsne
    · exact hrest p ((List.dropLast_sublist _).subset h)
  have hround : splitOnSlash (joinSlash (s :: (splitOnSlash rest).dropLast)) =
      s :: (splitOnSlash rest).dropLast := by
    refine splitOnSlash_joinSlash _ (by simp) ?_
    intro p hp
    rcases List.mem_cons.1 hp with h | h
    · rw [h]; exact hs
    · exact not_slash_mem_of_mem_splitOnSlash
        ((List.dropLast_sublist _).subset h :
          p ∈ splitOnSlash rest)
  unfold snipLookupKey
  rw [splitPath_append_single hs hsne hrest, resolveModulePath_lookup]
  dsimp only
  rw [if_neg hjne, hround]

/-- The per-row effect of the `UPDATE modules SET name = ?, parent_id = ?,
updated_at = ? WHERE id = ?` of `rename_module`. -/
def renameModUpd (newName : Str) (newParentId : Option Nat) (oldId now : Nat)
    (m : ModuleRow) : ModuleRow :=
  if m.id = oldId then
    { m with name := newName, parentId := newParentId, updatedAt := now }
  else m

/-- The reachability half of C7 for a root module renamed to a distinct bare
name: the single-row frame plus, for every `rest`, `get_snippet(new/rest)`
afterwards returning exactly what `get_snippet(old/rest)` returned before,
while `get_snippet(old/rest)` afterwards no longer resolves its module path
and falls back to a root-level lookup of the path's leaf name. -/
theorem renameModule_root_transfer (κ : Codec) (db : DB) (old new : Str)
    (now : Nat) (oldM : ModuleRow)
    (hold : '/' ∉ old) (hnew : '/' ∉ new) (hnne : new ≠ []) (hne : old ≠ new)
    (hres : getModuleByPath db old = some oldM)
    (hids : ModIdsNodup db.modules) (hnames : ModNamesUnique db.modules)
    (hsucc : (renameModule db old new now).1 = true) :
    (renameModule db old new now).2.snippets = db.snippets ∧
    (renameModule db old new now).2.modules =
      db.modules.map (renameModUpd new oldM.parentId oldM.id now) ∧
    (∀ rest : Str, (∀ part ∈ splitOnSlash rest, part ≠ []) →
      getSnippet κ (renameModule db old new now).2 (new ++ '/' :: rest) =
        getSnippet κ db (old ++ '/' :: rest) ∧
      getSnippet κ (renameModule db old new now).2 (old ++ '/' :: rest) =
        (findSnip db.snippets ((splitOnSlash rest).getLastD []) none).map
          (rowToSnip κ)) := by
  have holdne : old ≠ [] := by
    intro h
    rw [getModuleByPath_eq, if_pos h] at hres
    cases hres
  have hfc_old : findChild db.modules old none = some oldM := by
    rw [getModuleByPath_eq, if_neg holdne, splitOnSlash_eq_single hold] at hres
    cases hf : findChild db.modules old none with
    | none =>
      have hl : lookupSegs db.modules [old] none none = none := by
        simp only [lookupSegs, hf]
      rw [hl] at hres
      cases hres
    | some m =>
      have hl : lookupSegs db.modules [old] none none = some m := by
        simp only [lookupSegs, hf]
      rw [hl] at hres
      cases hres
      rfl
  have holdMem : oldM ∈ db.modules := List.mem_of_find?_eq_some hfc_old
  have holdProps : oldM.name = old ∧ oldM.parentId = none := by
    have hp := List.find?_some hfc_old
    simpa using hp
  have holdName : oldM.name = old := holdProps.1
  have holdPar : oldM.parentId = none := holdProps.2
  have hnn : renameModuleNewName new = new := by
    unfold renameModuleNewName
    rw [splitOnSlash_eq_single hnew]
    rfl
  have hnp : renameModuleNewParentPath new = none := by
    unfold renameModuleNewParentPath
    rw [splitOnSlash_eq_single hnew]
    rfl
  have hrm : renameModule db old new now =
      (if db.modules.any (fun m =>
          decide (m.name = new ∧ m.parentId = oldM.parentId ∧ m.id ≠ oldM.id)) then
        (false, db)
      else
        match getModuleByPath db new with
        | some existingModule =>
          if existingModule.id ≠ oldM.id then (false, db)
          else renameModuleApply db oldM new oldM.parentId now
        | none => renameModuleApply db oldM new oldM.parentId now) := by
    unfold renameModule
    rw [hres]
    dsimp only
    rw [hnn, hnp]
  have hconf : (db.modules.any fun m =>
      decide (m.name = new ∧ m.parentId = oldM.parentId ∧ m.id ≠ oldM.id)) = false := by
    cases hc : (db.modules.any fun m =>
        decide (m.name = new ∧ m.parentId = oldM.parentId ∧ m.id ≠ oldM.id)) with
    | false => rfl
    | true =>
      rw [hrm, if_pos hc] at hsucc
      exact absurd hsucc Bool.false_ne_true
  have hconf' : ∀ x ∈ db.modules,
      ¬(x.name = new ∧ x.parentId = oldM.parentId ∧ x.id ≠ oldM.id) := by
    intro x hx hcon
    have hany : (db.modules.any fun m =>
        decide (m.name = new ∧ m.parentId = oldM.parentId ∧ m.id ≠ oldM.id)) = true :=
      List.any_eq_true.2 ⟨x, hx, by simpa using hcon⟩
    rw [hconf] at hany
    exact absurd hany Bool.false_ne_true
  have hmu : moduleUpdateConflict db.modules oldM.id new oldM.parentId = false := by
    rw [holdPar]
    rfl
  have happ : renameModuleApply db oldM new oldM.parentId now =
      (true, { db with modules := db.modules.map (renameModUpd new oldM.parentId oldM.id now) }) := by
    unfold renameModuleApply
    rw [hmu]
    rfl
  have hresult : renameModule db old new now =
      (true, { db with modules := db.modules.map (renameModUpd new oldM.parentId oldM.id now) }) := by
    rw [hrm, if_neg (by rw [hconf]; exact Bool.false_ne_true)]
    cases hgn : getModuleByPath db new with
    | none => exact happ
    | some ex =>
      dsimp only
      by_cases hex : ex.id ≠ oldM.id
      · exfalso
        rw [hrm, if_neg (by rw [hconf]; exact Bool.false_ne_true), hgn] at hsucc
        dsimp only at hsucc
        rw [if_pos hex] at hsucc
        exact absurd hsucc Bool.false_ne_true
      · rw [if_neg hex]
        exact happ
  have hmods' : (renameModule db old new now).2.modules =
      db.modules.map (renameModUpd new oldM.parentId oldM.id now) := by
    rw [hresult]
  have hsnips' : (renameModule db old new now).2.snippets = db.snippets := by
    rw [hresult]
  have hu_id : ∀ m, (renameModUpd new oldM.parentId oldM.id now m).id = m.id := by
    intro m
    unfold renameModUpd
    split <;> rfl
  have hu_oldM : renameModUpd new oldM.parentId oldM.id now oldM =
      { oldM with name := new, parentId := oldM.parentId, updatedAt := now } := by
    unfold renameModUpd
    rw [if_pos rfl]
  have hu_fix : ∀ x ∈ db.modules, x ≠ oldM →
      renameModUpd new oldM.parentId oldM.id now x = x := by
    intro x hx hxne
    unfold renameModUpd
    rw [if_neg (fun hid => hxne (modRow_eq_of_id_eq hids hx holdMem hid))]
  have hmatch : ∀ x ∈ db.modules, ∀ (seg : Str) (pid : Nat),
      decide ((renameModUpd new oldM.parentId oldM.id now x).name = seg ∧
        (renameModUpd new oldM.parentId oldM.id now x).parentId = some pid) =
        decide (x.name = seg ∧ x.parentId = some pid) := by
    intro x hx seg pid
    by_cases hxid : x.id = oldM.id
    · have hxeq : x = oldM := modRow_eq_of_id_eq hids hx holdMem hxid
      subst hxeq
      have hupar : (renameModUpd new x.parentId x.id now x).parentId =
          x.parentId := by
        unfold renameModUpd
        rw [if_pos rfl]
      rw [hupar, holdPar]
      simp
    · rw [hu_fix x hx (fun he => hxid (by rw [he]))]
  refine ⟨hsnips', hmods', ?_⟩
  intro rest hrest
  have hchain_old : lookupSegs db.modules (old :: (splitOnSlash rest).dropLast)
      none none =
      lookupSegs db.modules (splitOnSlash rest).dropLast (some oldM.id)
        (some oldM) := by
    simp only [lookupSegs, hfc_old]
  have hfc_new : findChild ((renameModule db old new now).2).modules new none =
      some (renameModUpd new oldM.parentId oldM.id now oldM) := by
    rw [hmods']
    unfold findChild
    apply find?_map_update_some db.modules _
      (renameModUpd new oldM.parentId oldM.id now) oldM holdMem
    · have h1 : (renameModUpd new oldM.parentId oldM.id now oldM).name = new := by
        unfold renameModUpd
        rw [if_pos rfl]
      have h2 : (renameModUpd new oldM.parentId oldM.id now oldM).parentId =
          oldM.parentId := by
        unfold renameModUpd
        rw [if_pos rfl]
      rw [h1, h2, holdPar]
      simp
    · exact hu_fix
    · intro x hx
      simp only [decide_eq_false_iff_not]
      intro hcon
      by_cases hxo : x = oldM
      · subst hxo
        exact hne (holdName.symm.trans hcon.1)
      · refine hconf' x hx ⟨hcon.1, hcon.2.trans holdPar.symm, ?_⟩
        intro hid
        exact hxo (modRow_eq_of_id_eq hids hx holdMem hid)
  have hlook_new : lookupSegs ((renameModule db old new now).2).modules
      (new :: (splitOnSlash rest).dropLast) none none =
      (lookupSegs db.modules (splitOnSlash rest).dropLast (some oldM.id)
        (some oldM)).map (renameModUpd new oldM.parentId oldM.id now) := by
    simp only [lookupSegs, hfc_new]
    have h2 := lookupSegs_map_below db.modules
      (renameModUpd new oldM.parentId oldM.id now) hu_id hmatch
      (splitOnSlash rest).dropLast oldM.id (some oldM)
    rw [show Option.map (renameModUpd new oldM.parentId oldM.id now) (some oldM) =
      some (renameModUpd new oldM.parentId oldM.id now oldM) from rfl] at h2
    rw [hmods', hu_id oldM]
    exact h2
  have hleaf_new : (splitPath (new ++ '/' :: rest)).2 =
      (splitOnSlash rest).getLastD [] := by
    rw [splitPath_append_single hnew hnne hrest]
  have hleaf_old : (splitPath (old ++ '/' :: rest)).2 =
      (splitOnSlash rest).getLastD [] := by
    rw [splitPath_append_single hold holdne hrest]
  constructor
  · have hkey_new : snipLookupKey (renameModule db old new now).2
        (new ++ '/' :: rest) = snipLookupKey db (old ++ '/' :: rest) := by
      rw [snipLookupKey_append hnew hnne hrest,
        snipLookupKey_append hold holdne hrest]
      rw [hlook_new, hchain_old]
      cases hX : lookupSegs db.modules (splitOnSlash rest).dropLast
          (some oldM.id) (some oldM) with
      | none => rfl
      | some m => simp [hu_id m]
    rw [getSnippet_eq_map, getSnippet_eq_map, getSnippetRowByPath_eq,
      getSnippetRowByPath_eq, hkey_new, hsnips', hleaf_new, hleaf_old]
  · have hfcd : findChild ((renameModule db old new now).2).modules old none =
        none := by
      rw [hmods']
      unfold findChild
      apply find?_map_update_none db.modules _
        (renameModUpd new oldM.parentId oldM.id now) oldM
      · simp only [hu_oldM, decide_eq_false_iff_not]
        intro hcon
        exact hne hcon.1.symm
      · intro x hx hxne
        refine ⟨hu_fix x hx hxne, ?_⟩
        simp only [decide_eq_false_iff_not]
        intro hcon
        exact modNamesUnique_forall hnames x hx oldM holdMem hxne
          ⟨hcon.1.trans holdName.symm, hcon.2.trans holdPar.symm⟩
    have hkey_old' : snipLookupKey (renameModule db old new now).2
        (old ++ '/' :: rest) = none := by
      rw [snipLookupKey_append hold holdne hrest]
      simp only [lookupSegs, hfcd]
      rfl
    rw [getSnippet_eq_map, getSnippetRowByPath_eq, hkey_old', hsnips', hleaf_old]

theorem renameModuleApply_success (db : DB) (oldM : ModuleRow) (nn : Str)
    (P : Option Nat) (now : Nat)
    (h : (renameModuleApply db oldM nn P now).1 = true) :
    renameModuleApply db oldM nn P now =
      (true, { db with modules := db.modules.map (renameModUpd nn P oldM.id now) }) := by
  unfold renameModuleApply at h ⊢
  cases hmu : moduleUpdateConflict db.modules oldM.id nn P with
  | true =>
    rw [if_pos hmu] at h
    exact absurd h Bool.false_ne_true
  | false =>
    rw [if_neg Bool.false_ne_true]
    rfl

theorem renameTail_success (db : DB) (oldM : ModuleRow) (nn F : Str)
    (P : Option Nat) (now : Nat)
    (hsucc : (if db.modules.any (fun m => decide (m.name = nn ∧
          m.parentId = P ∧ m.id ≠ oldM.id)) then (false, db)
        else
          match getModuleByPath db F with
          | some existingModule =>
            if existingModule.id ≠ oldM.id then (false, db)
            else renameModuleApply db oldM nn P now
          | none => renameModuleApply db oldM nn P now).1 = true) :
    (if db.modules.any (fun m => decide (m.name = nn ∧
        m.parentId = P ∧ m.id ≠ oldM.id)) then (false, db)
      else
        match getModuleByPath db F with
        | some existingModule =>
          if existingModule.id ≠ oldM.id then (false, db)
          else renameModuleApply db oldM nn P now
        | none => renameModuleApply db oldM nn P now) =
      (true, { db with modules := db.modules.map (renameModUpd nn P oldM.id now) }) := by
  cases hc : db.modules.any (fun m => decide (m.name = nn ∧
      m.parentId = P ∧ m.id ≠ oldM.id)) with
  | true =>
    rw [if_pos hc] at hsucc
    exact absurd hsucc Bool.false_ne_true
  | false =>
    have hcond : ¬((db.modules.any (fun m => decide (m.name = nn ∧
        m.parentId = P ∧ m.id ≠ oldM.id))) = true) := by
      rw [hc]
      exact Bool.false_ne_true
    rw [if_neg hcond] at hsucc
    rw [if_neg Bool.false_ne_true]
    cases hgf : getModuleByPath db F with
    | none =>
      rw [hgf] at hsucc
      exact renameModuleApply_success db oldM nn P now hsucc
    | some ex =>
      rw [hgf] at hsucc
      dsimp only at hsucc ⊢
      by_cases hex : ex.id ≠ oldM.id
      · rw [if_pos hex] at hsucc
        exact absurd hsucc Bool.false_ne_true
      · rw [if_neg hex] at hsucc ⊢
        exact renameModuleApply_success db oldM nn P now hsucc

/-- Every successful `rename_module` — whatever the shapes of `old` and
`new` — resolves the old module, determines the new parent (the old parent
for a bare new name, the pre-existing module at the new parent path
otherwise) and commits exactly the one-row `UPDATE`: the result is the
row-map that touches only rows bearing the renamed module's id. -/
theorem renameModule_frame (db : DB) (old new : Str) (now : Nat)
    (hsucc : (renameModule db old new now).1 = true) :
    ∃ oldM newParentId,
      getModuleByPath db old = some oldM ∧
      ((renameModuleNewParentPath new = none ∧ newParentId = oldM.parentId) ∨
        ∃ pp np, renameModuleNewParentPath new = some pp ∧
          getModuleByPath db pp = some np ∧ newParentId = some np.id) ∧
      renameModule db old new now =
        (true, { db with modules := db.modules.map (renameModUpd (renameModuleNewName new) newParentId oldM.id now) }) := by
  cases hgo : getModuleByPath db old with
  | none =>
    exfalso
    unfold renameModule at hsucc
    rw [hgo] at hsucc
    exact absurd hsucc Bool.false_ne_true
  | some oldM =>
    cases hnp : renameModuleNewParentPath new with
    | none =>
      have hstep : renameModule db old new now =
          (if db.modules.any (fun m => decide (m.name = renameModuleNewName new ∧
              m.parentId = oldM.parentId ∧ m.id ≠ oldM.id)) then (false, db)
           else
             match getModuleByPath db (renameModuleNewName new) with
             | some existingModule =>
               if existingModule.id ≠ oldM.id then (false, db)
               else renameModuleApply db oldM (renameModuleNewName new)
                 oldM.parentId now
             | none => renameModuleApply db oldM (renameModuleNewName new)
                 oldM.parentId now) := by
        unfold renameModule
        rw [hgo]
        dsimp only
        rw [hnp]
      rw [hstep] at hsucc
      exact ⟨oldM, oldM.parentId, rfl, Or.inl ⟨rfl, rfl⟩,
        hstep.trans (renameTail_success db oldM (renameModuleNewName new)
          (renameModuleNewName new) oldM.parentId now hsucc)⟩
    | some pp =>
      cases hpp : getModuleByPath db pp with
      | none =>
        exfalso
        have hstep : renameModule db old new now = (false, db) := by
          unfold renameModule
          rw [hgo]
          dsimp only
          rw [hnp]
          dsimp only
          rw [hpp]
        rw [hstep] at hsucc
        exact absurd hsucc Bool.false_ne_true
      | some np =>
        have hstep : renameModule db old new now =
            (if db.modules.any (fun m => decide (m.name = renameModuleNewName new ∧
                m.parentId = some np.id ∧ m.id ≠ oldM.id)) then (false, db)
             else
               match getModuleByPath db
                   (if pp ≠ [] then new else renameModuleNewName new) with
               | some existingModule =>
                 if existingModule.id ≠ oldM.id then (false, db)
                 else renameModuleApply db oldM (renameModuleNewName new)
                   (some np.id) now
               | none => renameModuleApply db oldM (renameModuleNewName new)
                   (some np.id) now) := by
          unfold renameModule
          rw [hgo]
          dsimp only
          rw [hnp]
          dsimp only
          rw [hpp]
        rw [hstep] at hsucc
        exact ⟨oldM, some np.id, rfl, Or.inr ⟨pp, np, rfl, hpp, rfl⟩,
          hstep.trans (renameTail_success db oldM (renameModuleNewName new)
            (if pp ≠ [] then new else renameModuleNewName new) (some np.id)
            now hsucc)⟩

/-- **C7 (amended).** Every successful `rename_module(old, new)` updates only
the renamed module's row: the snippet table is untouched and the module table
is mapped by the one-row `UPDATE` keyed on the renamed module's id (its name
becomes the last segment of `new`; its parent stays the old parent for a bare
new name and becomes the pre-existing module at the new parent path
otherwise).  The reachability consequence holds in the clean case — a root
module renamed to a distinct bare name: every `old/rest` lookup transfers
verbatim to `new/rest`, and `old/rest` falls back to a root-level lookup of
its leaf name (not-found when no root snippet bears it).  Outside that case
the consequence can fail (see the counterexample: move into own subtree,
bare rename of a nested module, no-op rename). -/
theorem claim_C7_rename_module (κ : Codec) (db : DB) (old new : Str)
    (now : Nat) :
    ((renameModule db old new now).1 = true →
      (renameModule db old new now).2.snippets = db.snippets ∧
      ∃ oldM newParentId,
        getModuleByPath db old = some oldM ∧
        ((renameModuleNewParentPath new = none ∧ newParentId = oldM.parentId) ∨
          ∃ pp np, renameModuleNewParentPath new = some pp ∧
            getModuleByPath db pp = some np ∧ newParentId = some np.id) ∧
        (renameModule db old new now).2.modules =
          db.modules.map
            (renameModUpd (renameModuleNewName new) newParentId oldM.id now)) ∧
    (∀ oldM : ModuleRow, '/' ∉ old → '/' ∉ new → new ≠ [] → old ≠ new →
      getModuleByPath db old = some oldM →
      ModIdsNodup db.modules → ModNamesUnique db.modules →
      (renameModule db old new now).1 = true →
      ∀ rest : Str, (∀ part ∈ splitOnSlash rest, part ≠ []) →
        getSnippet κ (renameModule db old new now).2 (new ++ '/' :: rest) =
          getSnippet κ db (old ++ '/' :: rest) ∧
        getSnippet κ (renameModule db old new now).2 (old ++ '/' :: rest) =
          (findSnip db.snippets ((splitOnSlash rest).getLastD []) none).map
            (rowToSnip κ)) := by
  constructor
  · intro hsucc
    obtain ⟨oldM, P, hgo, hP, heq⟩ := renameModule_frame db old new now hsucc
    exact ⟨by rw [heq], oldM, P, hgo, hP, by rw [heq]⟩
  · intro oldM hold hnew hnne hne hres hids hnames hsucc
    exact (renameModule_root_transfer κ db old new now oldM hold hnew hnne hne
      hres hids hnames hsucc).2.2

/-- Witness for the amended C7: renaming root module `a` to `b` on `cycleDb`
leaves the snippet rows unchanged, moves `a/s` to `b/s` with the same lookup
result, and makes `a/s` not-found. -/
theorem claim_C7_witness :
    (renameModule cycleDb ['a'] ['b'] 2).1 = true ∧
    (renameModule cycleDb ['a'] ['b'] 2).2.snippets = cycleDb.snippets ∧
    getSnippet idCodec (renameModule cycleDb ['a'] ['b'] 2).2 ['b', '/', 's'] =
      getSnippet idCodec cycleDb ['a', '/', 's'] ∧
    getSnippet idCodec (renameModule cycleDb ['a'] ['b'] 2).2 ['a', '/', 's'] =
      none := by
  have hsucc : (renameModule cycleDb ['a'] ['b'] 2).1 = true := by decide
  have h := claim_C7_rename_module idCodec cycleDb ['a'] ['b'] 2
  have hframe := (h.1 hsucc).1
  have h3 := h.2 ⟨1, ['a'], none, 1, 1⟩ (by decide) (by decide) (by decide)
    (by decide) (by decide) (by decide) (by decide) hsucc ['s'] (by decide)
  exact ⟨hsucc, hframe, h3.1, h3.2.trans (by decide)⟩
